import Mathlib

/-!
Verification of the concore task-execution library core.

This file gives a shallow embedding of the parts of the repository that the
verified properties are about:

* `concore/low_level/concurrent_dequeue.hpp`: the concurrent double-ended
  queue with a bounded lock-free fast ring and an unbounded mutex-guarded
  slow path.  Each public operation of the C++ class runs atomically in the
  sequential embedding; the unbounded per-slot spin loops of
  `construct_in_fast` / `extract_from_fast` are modelled by `Option`
  (`none` = the spin never finds the expected slot state, i.e. the
  operation does not complete).
* `concore/spawn.hpp`: the wake-worker flags computed by the
  initializer-list overloads of `spawn` and `spawn_and_wait`, and the task
  group attached to tasks created by the functor overloads.
* `concore/rw_serializer.hpp`: the reader/writer serializer, as a labelled
  transition system.

All 16-bit machine arithmetic is expressed on `Nat` with explicit
`% 65536`.
-/

namespace Concore

/-! ## The bounded fast ring (`detail::bounded_dequeue`)

The C++ struct packs two `uint16_t` indices `(start, end)` into one 32-bit
atomic `fast_range_`.  The embedding keeps the two indices as `Nat` values
below 65536; the packed CAS is the atomic step of the sequential model.
Each slot of the circular buffer carries a state
(`freed`/`constructing`/`valid`/`destructing`) and a payload; since every
public operation completes its slot transition before returning, the only
states observable between operations are `freed` and `valid`, which the
model renders as `none` and `some payload`.
-/

/-- `uint16_t` increment: `x + 1` wrapped to 16 bits. -/
def inc16 (a : Nat) : Nat := (a + 1) % 65536

/-- `uint16_t` decrement: `x - 1` wrapped to 16 bits. -/
def dec16 (a : Nat) : Nat := (a + 65535) % 65536

/-- `uint16_t` subtraction `e - s` wrapped to 16 bits: the occupancy
computation `uint16_t(old.end - old.start)` of the C++ code. -/
def dist16 (e s : Nat) : Nat := (e + 65536 - s) % 65536

/-- The `uint16_t` position of the `k`-th resident element counted from
`start`. -/
def pos_at (st k : Nat) : Nat := (st + k) % 65536

/-- State of `detail::bounded_dequeue<T>`: the fast ring.  `size_` is the
`uint16_t` size, `circular_buffer_` the slot array (slot = `none` for
`freed`, `some x` for `valid` holding `x`), and `start`/`end_` the two
16-bit indices packed in `fast_range_`. -/
structure bounded_dequeue (T : Type) where
  size_ : Nat
  circular_buffer_ : List (Option T)
  start : Nat
  end_ : Nat
deriving DecidableEq, Repr

/-- `static_cast<uint16_t>(size_ - 3)`: the largest occupancy at which a
reservation still succeeds. -/
def max_dist (sz : Nat) : Nat := (sz + 65533) % 65536

/-- Occupancy of the fast ring: `end - start` in 16-bit arithmetic. -/
def occupancy {T : Type} (q : bounded_dequeue T) : Nat := dist16 q.end_ q.start

/-- `bounded_dequeue::reserve_back`: fail if the occupancy exceeds
`size_ - 3`, otherwise advance `end` by one and yield the old `end` as the
reserved position. -/
def reserve_back {T : Type} (q : bounded_dequeue T) : Option (bounded_dequeue T × Nat) :=
  if max_dist q.size_ < dist16 q.end_ q.start then none
  else some ({ q with end_ := inc16 q.end_ }, q.end_)

/-- `bounded_dequeue::reserve_front`: fail if the occupancy exceeds
`size_ - 3`, otherwise move `start` back by one and yield the new `start`
as the reserved position. -/
def reserve_front {T : Type} (q : bounded_dequeue T) : Option (bounded_dequeue T × Nat) :=
  if max_dist q.size_ < dist16 q.end_ q.start then none
  else some ({ q with start := dec16 q.start }, dec16 q.start)

/-- `bounded_dequeue::consume_front`: fail if `start == end`, otherwise
advance `start` by one and yield the old `start` as the consumed
position. -/
def consume_front {T : Type} (q : bounded_dequeue T) : Option (bounded_dequeue T × Nat) :=
  if q.start = q.end_ then none
  else some ({ q with start := inc16 q.start }, q.start)

/-- `bounded_dequeue::consume_back`: fail if `start == end`, otherwise move
`end` back by one and yield the new `end` as the consumed position. -/
def consume_back {T : Type} (q : bounded_dequeue T) : Option (bounded_dequeue T × Nat) :=
  if q.start = q.end_ then none
  else some ({ q with end_ := dec16 q.end_ }, dec16 q.end_)

/-- `bounded_dequeue::construct_in_fast`: the CAS loop
`while (!state_.compare_exchange_strong(old, constructing, …))` starts
with `old = freed` and — because `compare_exchange_strong` stores the
observed value into `old` on failure, and `old` is never reset — exits on
the second iteration whatever the slot state was.  In a quiescent
(sequential) execution the operation therefore always completes: the
element is moved into the slot at `pos % size_` and the slot published
`valid`, overwriting any payload that was still resident there. -/
def construct_in_fast {T : Type} (q : bounded_dequeue T) (pos : Nat) (elem : T) :
    bounded_dequeue T :=
  { q with circular_buffer_ := q.circular_buffer_.set (pos % q.size_) (some elem) }

/-- `bounded_dequeue::extract_from_fast`: the CAS loop starts with
`old = valid` and, by the same expected-value update of
`compare_exchange_strong`, exits on the second iteration whatever the
slot state was.  The operation always completes: the slot at
`pos % size_` is published `freed` and its payload moved out.  When the
slot was already `freed`, the moved-out value is the default-constructed /
moved-from husk left in the slot, which the model renders as `none`. -/
def extract_from_fast {T : Type} (q : bounded_dequeue T) (pos : Nat) :
    bounded_dequeue T × Option T :=
  ({ q with circular_buffer_ := q.circular_buffer_.set (pos % q.size_) none },
   q.circular_buffer_.getD (pos % q.size_) none)

/-! ## The full concurrent deque (`concore::concurrent_dequeue`) -/

/-- State of `concurrent_dequeue<T>`: the fast ring, the mutex-guarded
`std::deque` of slow elements, and the atomic element counter of the slow
path. -/
structure concurrent_dequeue (T : Type) where
  fast_deque_ : bounded_dequeue T
  slow_access_elems_ : List T
  num_elements_slow_ : Int
deriving DecidableEq, Repr

/-- The constructor `concurrent_dequeue(expected_size)`: the fast buffer
has `expected_size` slots, all `freed`; `size_` is the value truncated to
`uint16_t`; the slow path is empty. -/
def mk_dequeue (T : Type) (expected_size : Nat) : concurrent_dequeue T :=
  { fast_deque_ :=
      { size_ := expected_size % 65536
        circular_buffer_ := List.replicate expected_size none
        start := 0
        end_ := 0 }
    slow_access_elems_ := []
    num_elements_slow_ := 0 }

/-- `concurrent_dequeue::push_back`: reserve a fast slot and construct the
element there (the construction always completes, see
`construct_in_fast`); if reservation fails, append to the slow deque
under the lock, incrementing the slow counter.  The C++ function returns
`void`: there is no failure path. -/
def push_back {T : Type} (q : concurrent_dequeue T) (elem : T) :
    concurrent_dequeue T :=
  match reserve_back q.fast_deque_ with
  | some (f, pos) => { q with fast_deque_ := construct_in_fast f pos elem }
  | none =>
      { q with
          num_elements_slow_ := q.num_elements_slow_ + 1
          slow_access_elems_ := q.slow_access_elems_ ++ [elem] }

/-- `concurrent_dequeue::push_front`: reserve a fast slot at the front and
construct the element there; if reservation fails, prepend to the slow
deque under the lock, incrementing the slow counter.  As with
`push_back`, there is no failure path. -/
def push_front {T : Type} (q : concurrent_dequeue T) (elem : T) :
    concurrent_dequeue T :=
  match reserve_front q.fast_deque_ with
  | some (f, pos) => { q with fast_deque_ := construct_in_fast f pos elem }
  | none =>
      { q with
          num_elements_slow_ := q.num_elements_slow_ + 1
          slow_access_elems_ := elem :: q.slow_access_elems_ }

/-- Result of a `try_pop` operation: the C++ function returns `true` with
a value moved into the out-parameter, or `false` on an empty queue.  The
moved value is `some x` for a resident element and `none` for the
moved-from husk extracted when a consumed position addresses an
already-freed slot (see `extract_from_fast`). -/
inductive pop_result (T : Type) where
  | empty
  | popped (q : concurrent_dequeue T) (elem : Option T)
deriving DecidableEq, Repr

/-- `concurrent_dequeue::try_pop_front`: consume from the fast ring if
possible; otherwise, if the slow counter hints at slow elements, pop the
front of the slow deque under the lock; otherwise report empty. -/
def try_pop_front {T : Type} (q : concurrent_dequeue T) : pop_result T :=
  match consume_front q.fast_deque_ with
  | some (f, pos) =>
      .popped { q with fast_deque_ := (extract_from_fast f pos).1 }
        (extract_from_fast f pos).2
  | none =>
      if 0 < q.num_elements_slow_ then
        match q.slow_access_elems_ with
        | [] => .empty
        | x :: rest =>
            .popped { q with
                       num_elements_slow_ := q.num_elements_slow_ - 1
                       slow_access_elems_ := rest } (some x)
      else .empty

/-- `concurrent_dequeue::try_pop_back`: consume from the back of the fast
ring if possible; otherwise, if the slow counter hints at slow elements,
pop the back of the slow deque under the lock; otherwise report empty. -/
def try_pop_back {T : Type} (q : concurrent_dequeue T) : pop_result T :=
  match consume_back q.fast_deque_ with
  | some (f, pos) =>
      .popped { q with fast_deque_ := (extract_from_fast f pos).1 }
        (extract_from_fast f pos).2
  | none =>
      if 0 < q.num_elements_slow_ then
        match q.slow_access_elems_.getLast? with
        | none => .empty
        | some x =>
            .popped { q with
                       num_elements_slow_ := q.num_elements_slow_ - 1
                       slow_access_elems_ := q.slow_access_elems_.dropLast } (some x)
      else .empty

/-- `try_pop_front` with the C++ calling convention made explicit: `elem`
is the caller's out-parameter before the call (an `Option T`, where
`none` stands for an indeterminate moved-from value); the result is the
returned `bool` together with the deque state and the out-parameter after
the call. -/
def try_pop_front_ref {T : Type} (q : concurrent_dequeue T) (elem : Option T) :
    Bool × concurrent_dequeue T × Option T :=
  match try_pop_front q with
  | .empty => (false, q, elem)
  | .popped q1 x => (true, q1, x)

/-- `try_pop_back` with the C++ calling convention made explicit, as in
`try_pop_front_ref`. -/
def try_pop_back_ref {T : Type} (q : concurrent_dequeue T) (elem : Option T) :
    Bool × concurrent_dequeue T × Option T :=
  match try_pop_back q with
  | .empty => (false, q, elem)
  | .popped q1 x => (true, q1, x)

/-- `concurrent_dequeue::unsafe_clear`: reset the packed index pair to 0,
mark every slot `freed`, clear the slow deque and zero the slow counter. -/
def unsafe_clear {T : Type} (q : concurrent_dequeue T) : concurrent_dequeue T :=
  { fast_deque_ :=
      { size_ := q.fast_deque_.size_
        circular_buffer_ := List.replicate q.fast_deque_.circular_buffer_.length none
        start := 0
        end_ := 0 }
    slow_access_elems_ := []
    num_elements_slow_ := 0 }

/-! ## Contents and the data-structure invariant -/

/-- The elements resident in the fast ring, front first: the payloads of
the slots addressed by the positions `start, start+1, …, end-1`. -/
def fast_list {T : Type} (f : bounded_dequeue T) : List T :=
  (List.range (occupancy f)).filterMap
    (fun k => f.circular_buffer_.getD (pos_at f.start k % f.size_) none)

/-- The multiset of elements resident in the whole deque (fast ring plus
slow deque). -/
def resident {T : Type} (q : concurrent_dequeue T) : Multiset T :=
  ↑(fast_list q.fast_deque_) + ↑q.slow_access_elems_

/-- The basic invariant of the fast ring, preserved by every sequential
operation for every ring size: well-formed sizes and indices, buffer of
the declared length, and occupancy at most `size_ - 2` (the reservation
guard admits occupancy `size_ - 3` and adds one). -/
structure fast_inv {T : Type} (f : bounded_dequeue T) : Prop where
  hsz : 3 ≤ f.size_
  hsz2 : f.size_ < 65536
  hlen : f.circular_buffer_.length = f.size_
  hstart : f.start < 65536
  hend : f.end_ < 65536
  hocc : occupancy f ≤ f.size_ - 2

/-- The invariant of the whole deque: the basic fast-ring invariant
together with the slow counter agreeing with the slow deque's length. -/
structure dq_inv {T : Type} (q : concurrent_dequeue T) : Prop where
  fast : fast_inv q.fast_deque_
  hslow : q.num_elements_slow_ = q.slow_access_elems_.length

/-- The slot invariant of the fast ring.  It only holds when the ring
size divides 2^16: then distinct 16-bit positions of the resident window
always address distinct slots, a slot is `valid` exactly when some
resident position addresses it, and no construction ever overwrites a
resident payload.  For other sizes the 16-bit positions can alias one
slot under wraparound and the invariant is violated by real executions
(see the C5 counterexample). -/
structure fast_slot_inv {T : Type} (f : bounded_dequeue T) : Prop where
  base : fast_inv f
  hdvd : f.size_ ∣ 65536
  hslots : ∀ j < f.size_,
      (f.circular_buffer_.getD j none).isSome ↔
        ∃ k < occupancy f, pos_at f.start k % f.size_ = j
  hdist : ∀ k1 k2, k1 < k2 → k2 < occupancy f →
      pos_at f.start k1 % f.size_ ≠ pos_at f.start k2 % f.size_

/-- The slot invariant of the whole deque (ring size dividing 2^16). -/
structure dq_slot_inv {T : Type} (q : concurrent_dequeue T) : Prop where
  fast : fast_slot_inv q.fast_deque_
  hslow : q.num_elements_slow_ = q.slow_access_elems_.length

/-! ## Arithmetic facts about the 16-bit index space -/

theorem dist16_lt (e s : Nat) : dist16 e s < 65536 := by
  unfold dist16; omega

theorem dist16_eq_zero_iff {e s : Nat} (hs : s < 65536) (he : e < 65536) :
    dist16 e s = 0 ↔ s = e := by
  unfold dist16; omega

theorem max_dist_eq {sz : Nat} (h3 : 3 ≤ sz) (h4 : sz < 65536) : max_dist sz = sz - 3 := by
  unfold max_dist; omega

theorem dist16_inc_end {e s : Nat} (hs : s < 65536) (he : e < 65536)
    (h : dist16 e s ≤ 65534) : dist16 (inc16 e) s = dist16 e s + 1 := by
  unfold dist16 inc16 at *; omega

theorem dist16_dec_start {e s : Nat} (hs : s < 65536) (he : e < 65536)
    (h : dist16 e s ≤ 65534) : dist16 e (dec16 s) = dist16 e s + 1 := by
  unfold dist16 dec16 at *; omega

theorem dist16_inc_start {e s : Nat} (hs : s < 65536) (he : e < 65536)
    (h : 1 ≤ dist16 e s) : dist16 e (inc16 s) = dist16 e s - 1 := by
  unfold dist16 inc16 at *; omega

theorem dist16_dec_end {e s : Nat} (hs : s < 65536) (he : e < 65536)
    (h : 1 ≤ dist16 e s) : dist16 (dec16 e) s = dist16 e s - 1 := by
  unfold dist16 dec16 at *; omega

theorem pos_at_dist16 {e s : Nat} (hs : s < 65536) (he : e < 65536) :
    pos_at s (dist16 e s) = e := by
  unfold pos_at dist16; omega

theorem pos_at_zero {s : Nat} (hs : s < 65536) : pos_at s 0 = s := by
  unfold pos_at; omega

theorem pos_at_dec16_succ (s k : Nat) : pos_at (dec16 s) (k + 1) = pos_at s k := by
  unfold pos_at dec16; omega

theorem pos_at_inc16 (s k : Nat) : pos_at (inc16 s) k = pos_at s (k + 1) := by
  unfold pos_at inc16; omega

theorem pos_at_pred {e s occ : Nat} (hs : s < 65536) (he : e < 65536)
    (hocc : dist16 e s = occ) (h1 : 1 ≤ occ) : pos_at s (occ - 1) = dec16 e := by
  unfold pos_at dec16; unfold dist16 at hocc; omega

theorem inc16_lt (a : Nat) : inc16 a < 65536 := by unfold inc16; omega

theorem dec16_lt (a : Nat) : dec16 a < 65536 := by unfold dec16; omega

/-! ## Helper facts about `getD` on slot buffers -/

theorem getD_set_ne {T : Type} (l : List (Option T)) (i j : Nat) (a : Option T)
    (h : i ≠ j) : (l.set i a).getD j none = l.getD j none := by
  simp [List.getD_eq_getElem?_getD, List.getElem?_set_ne h]

theorem getD_set_self {T : Type} (l : List (Option T)) (i : Nat) (a : Option T)
    (hi : i < l.length) : (l.set i a).getD i none = a := by
  simp [List.getD_eq_getElem?_getD, List.getElem?_set_self, hi]

theorem getD_replicate {T : Type} (n j : Nat) :
    (List.replicate n (none : Option T)).getD j none = none := by
  simp [List.getD_eq_getElem?_getD, List.getElem?_replicate]
  split <;> rfl

/-! ## Inversion lemmas for the fast-ring operations -/

theorem reserve_back_eq_none {T : Type} {q : bounded_dequeue T} :
    reserve_back q = none ↔ max_dist q.size_ < dist16 q.end_ q.start := by
  unfold reserve_back; split <;> simp_all

theorem reserve_back_eq_some {T : Type} {q f1 : bounded_dequeue T} {pos : Nat}
    (h : reserve_back q = some (f1, pos)) :
    dist16 q.end_ q.start ≤ max_dist q.size_ ∧
      f1 = { q with end_ := inc16 q.end_ } ∧ pos = q.end_ := by
  unfold reserve_back at h
  split at h
  · exact absurd h (by simp)
  · refine ⟨by omega, ?_, ?_⟩ <;> cases h <;> rfl

theorem reserve_front_eq_none {T : Type} {q : bounded_dequeue T} :
    reserve_front q = none ↔ max_dist q.size_ < dist16 q.end_ q.start := by
  unfold reserve_front; split <;> simp_all

theorem reserve_front_eq_some {T : Type} {q f1 : bounded_dequeue T} {pos : Nat}
    (h : reserve_front q = some (f1, pos)) :
    dist16 q.end_ q.start ≤ max_dist q.size_ ∧
      f1 = { q with start := dec16 q.start } ∧ pos = dec16 q.start := by
  unfold reserve_front at h
  split at h
  · exact absurd h (by simp)
  · refine ⟨by omega, ?_, ?_⟩ <;> cases h <;> rfl

theorem consume_front_eq_none {T : Type} {q : bounded_dequeue T} :
    consume_front q = none ↔ q.start = q.end_ := by
  unfold consume_front; split <;> simp_all

theorem consume_front_eq_some {T : Type} {q f1 : bounded_dequeue T} {pos : Nat}
    (h : consume_front q = some (f1, pos)) :
    q.start ≠ q.end_ ∧ f1 = { q with start := inc16 q.start } ∧ pos = q.start := by
  unfold consume_front at h
  split at h
  · exact absurd h (by simp)
  · next hne => refine ⟨hne, ?_, ?_⟩ <;> cases h <;> rfl

theorem consume_back_eq_none {T : Type} {q : bounded_dequeue T} :
    consume_back q = none ↔ q.start = q.end_ := by
  unfold consume_back; split <;> simp_all

theorem consume_back_eq_some {T : Type} {q f1 : bounded_dequeue T} {pos : Nat}
    (h : consume_back q = some (f1, pos)) :
    q.start ≠ q.end_ ∧ f1 = { q with end_ := dec16 q.end_ } ∧ pos = dec16 q.end_ := by
  unfold consume_back at h
  split at h
  · exact absurd h (by simp)
  · next hne => refine ⟨hne, ?_, ?_⟩ <;> cases h <;> rfl

/-! ## Slot-aliasing arithmetic

When the ring size divides 2^16, distinct 16-bit positions of a resident
window of width at most `size_ - 2` address distinct slots, and the
freshly reserved back and front positions address a slot outside the
window.  For other ring sizes this fails under 16-bit wraparound. -/

theorem fresh_pos_lt {sz st occ k : Nat} (hdvd : sz ∣ 65536) (h3 : 3 ≤ sz)
    (hocc : occ ≤ sz - 2) (hk : k < occ) :
    pos_at st k % sz ≠ pos_at st occ % sz := by
  unfold pos_at
  rw [Nat.mod_mod_of_dvd _ hdvd, Nat.mod_mod_of_dvd _ hdvd]
  intro heq
  have hmod : Nat.ModEq sz (st + k) (st + occ) := heq
  have hdv := (Nat.modEq_iff_dvd' (by omega : st + k ≤ st + occ)).mp hmod
  have hsub : st + occ - (st + k) = occ - k := by omega
  rw [hsub] at hdv
  have := Nat.le_of_dvd (by omega) hdv
  omega

theorem fresh_pos_dec16 {sz st k : Nat} (hdvd : sz ∣ 65536) (h3 : 3 ≤ sz)
    (hk : k ≤ sz - 3) :
    pos_at st k % sz ≠ dec16 st % sz := by
  have hsz655 : sz ≤ 65536 := Nat.le_of_dvd (by omega) hdvd
  unfold pos_at dec16
  rw [Nat.mod_mod_of_dvd _ hdvd, Nat.mod_mod_of_dvd _ hdvd]
  intro heq
  have hmod : Nat.ModEq sz (st + k) (st + 65535) := heq
  have hdv := (Nat.modEq_iff_dvd' (by omega : st + k ≤ st + 65535)).mp hmod
  have hsub : st + 65535 - (st + k) = 65535 - k := by omega
  rw [hsub] at hdv
  have hdv2 : sz ∣ 65536 - (65535 - k) := Nat.dvd_sub' hdvd hdv
  have hsub2 : 65536 - (65535 - k) = k + 1 := by omega
  rw [hsub2] at hdv2
  have := Nat.le_of_dvd (by omega) hdv2
  omega

/-! ## Preservation of the basic invariant -/

theorem fast_reserve_back_inv {T : Type} {f f1 : bounded_dequeue T} {pos : Nat} (x : T)
    (hf : fast_inv f) (hres : reserve_back f = some (f1, pos)) :
    fast_inv (construct_in_fast f1 pos x) ∧
      (construct_in_fast f1 pos x).size_ = f.size_ := by
  obtain ⟨hle, hf1, hpos⟩ := reserve_back_eq_some hres
  rw [hf1, hpos]
  obtain ⟨sz, buf, st, e⟩ := f
  have Hsz : 3 ≤ sz := hf.hsz
  have Hsz2 : sz < 65536 := hf.hsz2
  have Hlen : buf.length = sz := hf.hlen
  have Hstart : st < 65536 := hf.hstart
  have Hend : e < 65536 := hf.hend
  have Hle : dist16 e st ≤ max_dist sz := hle
  have hocc3 : dist16 e st ≤ sz - 3 := by rw [max_dist_eq Hsz Hsz2] at Hle; exact Hle
  have hocc' : dist16 (inc16 e) st = dist16 e st + 1 :=
    dist16_inc_end Hstart Hend (by omega)
  refine ⟨⟨Hsz, Hsz2, ?_, Hstart, inc16_lt e, ?_⟩, rfl⟩
  · show (buf.set (e % sz) (some x)).length = sz
    simpa using Hlen
  · show dist16 (inc16 e) st ≤ sz - 2
    rw [hocc']; omega

theorem fast_reserve_front_inv {T : Type} {f f1 : bounded_dequeue T} {pos : Nat} (x : T)
    (hf : fast_inv f) (hres : reserve_front f = some (f1, pos)) :
    fast_inv (construct_in_fast f1 pos x) ∧
      (construct_in_fast f1 pos x).size_ = f.size_ := by
  obtain ⟨hle, hf1, hpos⟩ := reserve_front_eq_some hres
  rw [hf1, hpos]
  obtain ⟨sz, buf, st, e⟩ := f
  have Hsz : 3 ≤ sz := hf.hsz
  have Hsz2 : sz < 65536 := hf.hsz2
  have Hlen : buf.length = sz := hf.hlen
  have Hstart : st < 65536 := hf.hstart
  have Hend : e < 65536 := hf.hend
  have Hle : dist16 e st ≤ max_dist sz := hle
  have hocc3 : dist16 e st ≤ sz - 3 := by rw [max_dist_eq Hsz Hsz2] at Hle; exact Hle
  have hocc' : dist16 e (dec16 st) = dist16 e st + 1 :=
    dist16_dec_start Hstart Hend (by omega)
  refine ⟨⟨Hsz, Hsz2, ?_, dec16_lt st, Hend, ?_⟩, rfl⟩
  · show (buf.set (dec16 st % sz) (some x)).length = sz
    simpa using Hlen
  · show dist16 e (dec16 st) ≤ sz - 2
    rw [hocc']; omega

theorem fast_consume_front_inv {T : Type} {f f1 : bounded_dequeue T} {pos : Nat}
    (hf : fast_inv f) (hcons : consume_front f = some (f1, pos)) :
    fast_inv (extract_from_fast f1 pos).1 ∧
      (extract_from_fast f1 pos).1.size_ = f.size_ := by
  obtain ⟨hne, hf1, hpos⟩ := consume_front_eq_some hcons
  rw [hf1, hpos]
  obtain ⟨sz, buf, st, e⟩ := f
  have Hsz : 3 ≤ sz := hf.hsz
  have Hsz2 : sz < 65536 := hf.hsz2
  have Hlen : buf.length = sz := hf.hlen
  have Hstart : st < 65536 := hf.hstart
  have Hend : e < 65536 := hf.hend
  have Hocc : dist16 e st ≤ sz - 2 := hf.hocc
  have Hne : st ≠ e := hne
  have hocc1 : 1 ≤ dist16 e st := by
    have h0 : dist16 e st ≠ 0 := fun hh => Hne ((dist16_eq_zero_iff Hstart Hend).mp hh)
    omega
  have hocc' : dist16 e (inc16 st) = dist16 e st - 1 :=
    dist16_inc_start Hstart Hend hocc1
  refine ⟨⟨Hsz, Hsz2, ?_, inc16_lt st, Hend, ?_⟩, rfl⟩
  · show (buf.set (st % sz) none).length = sz
    simpa using Hlen
  · show dist16 e (inc16 st) ≤ sz - 2
    rw [hocc']; omega

theorem fast_consume_back_inv {T : Type} {f f1 : bounded_dequeue T} {pos : Nat}
    (hf : fast_inv f) (hcons : consume_back f = some (f1, pos)) :
    fast_inv (extract_from_fast f1 pos).1 ∧
      (extract_from_fast f1 pos).1.size_ = f.size_ := by
  obtain ⟨hne, hf1, hpos⟩ := consume_back_eq_some hcons
  rw [hf1, hpos]
  obtain ⟨sz, buf, st, e⟩ := f
  have Hsz : 3 ≤ sz := hf.hsz
  have Hsz2 : sz < 65536 := hf.hsz2
  have Hlen : buf.length = sz := hf.hlen
  have Hstart : st < 65536 := hf.hstart
  have Hend : e < 65536 := hf.hend
  have Hocc : dist16 e st ≤ sz - 2 := hf.hocc
  have Hne : st ≠ e := hne
  have hocc1 : 1 ≤ dist16 e st := by
    have h0 : dist16 e st ≠ 0 := fun hh => Hne ((dist16_eq_zero_iff Hstart Hend).mp hh)
    omega
  have hocc' : dist16 (dec16 e) st = dist16 e st - 1 :=
    dist16_dec_end Hstart Hend hocc1
  refine ⟨⟨Hsz, Hsz2, ?_, Hstart, dec16_lt e, ?_⟩, rfl⟩
  · show (buf.set (dec16 e % sz) none).length = sz
    simpa using Hlen
  · show dist16 (dec16 e) st ≤ sz - 2
    rw [hocc']; omega

theorem push_back_inv {T : Type} {q : concurrent_dequeue T} (x : T) (h : dq_inv q) :
    dq_inv (push_back q x) ∧
      (push_back q x).fast_deque_.size_ = q.fast_deque_.size_ := by
  unfold push_back
  cases hres : reserve_back q.fast_deque_ with
  | none =>
    dsimp only
    refine ⟨⟨h.fast, ?_⟩, rfl⟩
    show q.num_elements_slow_ + 1 = ((q.slow_access_elems_ ++ [x]).length : Int)
    rw [List.length_append, h.hslow]
    push_cast
    simp
  | some fp =>
    obtain ⟨f1, pos⟩ := fp
    dsimp only
    obtain ⟨hfi, hsz⟩ := fast_reserve_back_inv x h.fast hres
    exact ⟨⟨hfi, h.hslow⟩, hsz⟩

theorem push_front_inv {T : Type} {q : concurrent_dequeue T} (x : T) (h : dq_inv q) :
    dq_inv (push_front q x) ∧
      (push_front q x).fast_deque_.size_ = q.fast_deque_.size_ := by
  unfold push_front
  cases hres : reserve_front q.fast_deque_ with
  | none =>
    dsimp only
    refine ⟨⟨h.fast, ?_⟩, rfl⟩
    show q.num_elements_slow_ + 1 = ((x :: q.slow_access_elems_).length : Int)
    rw [List.length_cons, h.hslow]
    push_cast
    simp
  | some fp =>
    obtain ⟨f1, pos⟩ := fp
    dsimp only
    obtain ⟨hfi, hsz⟩ := fast_reserve_front_inv x h.fast hres
    exact ⟨⟨hfi, h.hslow⟩, hsz⟩

theorem try_pop_front_inv {T : Type} {q q' : concurrent_dequeue T} {p : Option T}
    (h : dq_inv q) (hp : try_pop_front q = .popped q' p) :
    dq_inv q' ∧ q'.fast_deque_.size_ = q.fast_deque_.size_ := by
  unfold try_pop_front at hp
  cases hcons : consume_front q.fast_deque_ with
  | some fp =>
    obtain ⟨f1, pos⟩ := fp
    rw [hcons] at hp
    dsimp only at hp
    cases hp
    obtain ⟨hfi, hsz⟩ := fast_consume_front_inv h.fast hcons
    exact ⟨⟨hfi, h.hslow⟩, hsz⟩
  | none =>
    rw [hcons] at hp
    dsimp only at hp
    by_cases hnum : 0 < q.num_elements_slow_
    · rw [if_pos hnum] at hp
      cases hsl : q.slow_access_elems_ with
      | nil => rw [hsl] at hp; simp at hp
      | cons x0 rest =>
        rw [hsl] at hp
        dsimp only at hp
        cases hp
        refine ⟨⟨h.fast, ?_⟩, rfl⟩
        show q.num_elements_slow_ - 1 = (rest.length : Int)
        rw [h.hslow, hsl]
        push_cast
        simp
    · rw [if_neg hnum] at hp
      simp at hp

theorem try_pop_back_inv {T : Type} {q q' : concurrent_dequeue T} {p : Option T}
    (h : dq_inv q) (hp : try_pop_back q = .popped q' p) :
    dq_inv q' ∧ q'.fast_deque_.size_ = q.fast_deque_.size_ := by
  unfold try_pop_back at hp
  cases hcons : consume_back q.fast_deque_ with
  | some fp =>
    obtain ⟨f1, pos⟩ := fp
    rw [hcons] at hp
    dsimp only at hp
    cases hp
    obtain ⟨hfi, hsz⟩ := fast_consume_back_inv h.fast hcons
    exact ⟨⟨hfi, h.hslow⟩, hsz⟩
  | none =>
    rw [hcons] at hp
    dsimp only at hp
    by_cases hnum : 0 < q.num_elements_slow_
    · rw [if_pos hnum] at hp
      cases hsl : q.slow_access_elems_.getLast? with
      | none => rw [hsl] at hp; simp at hp
      | some x0 =>
        rw [hsl] at hp
        dsimp only at hp
        cases hp
        have hne : q.slow_access_elems_ ≠ [] := by
          intro he; rw [he] at hsl; simp at hsl
        have hlen1 : 1 ≤ q.slow_access_elems_.length := by
          cases hq : q.slow_access_elems_ with
          | nil => exact absurd hq hne
          | cons a l => simp [hq]
        refine ⟨⟨h.fast, ?_⟩, rfl⟩
        show q.num_elements_slow_ - 1 = (q.slow_access_elems_.dropLast.length : Int)
        rw [List.length_dropLast, h.hslow]
        push_cast
        omega
    · rw [if_neg hnum] at hp
      simp at hp

theorem mk_dequeue_spec (T : Type) (sz : Nat) (h3 : 3 ≤ sz) (h4 : sz < 65536) :
    dq_inv (mk_dequeue T sz) ∧ resident (mk_dequeue T sz) = 0 ∧
      (mk_dequeue T sz).fast_deque_.size_ = sz := by
  have hszeq : sz % 65536 = sz := Nat.mod_eq_of_lt h4
  have hocc0 : dist16 0 0 = 0 := by unfold dist16; omega
  refine ⟨⟨⟨?_, ?_, ?_, ?_, ?_, ?_⟩, ?_⟩, ?_, hszeq⟩
  · show 3 ≤ sz % 65536
    omega
  · show sz % 65536 < 65536
    omega
  · show (List.replicate sz (none : Option T)).length = sz % 65536
    simp [hszeq]
  · show (0 : Nat) < 65536
    omega
  · show (0 : Nat) < 65536
    omega
  · show dist16 0 0 ≤ sz % 65536 - 2
    omega
  · show (0 : Int) = (([] : List T).length : Int)
    simp
  · show resident (mk_dequeue T sz) = 0
    unfold resident fast_list
    show ↑((List.range (dist16 0 0)).filterMap
        (fun k => (List.replicate sz (none : Option T)).getD (pos_at 0 k % (sz % 65536)) none)) +
      (↑([] : List T) : Multiset T) = 0
    rw [hocc0]
    simp

theorem unsafe_clear_spec {T : Type} {q : concurrent_dequeue T} (h : dq_inv q) :
    dq_inv (unsafe_clear q) ∧ resident (unsafe_clear q) = 0 ∧
      (unsafe_clear q).fast_deque_.size_ = q.fast_deque_.size_ := by
  have hlen := h.fast.hlen
  have hsz := h.fast.hsz
  have hsz2 := h.fast.hsz2
  have hocc0 : dist16 0 0 = 0 := by unfold dist16; omega
  refine ⟨⟨⟨hsz, hsz2, ?_, ?_, ?_, ?_⟩, ?_⟩, ?_, rfl⟩
  · show (List.replicate q.fast_deque_.circular_buffer_.length (none : Option T)).length =
      q.fast_deque_.size_
    simp [hlen]
  · show (0 : Nat) < 65536
    omega
  · show (0 : Nat) < 65536
    omega
  · show dist16 0 0 ≤ q.fast_deque_.size_ - 2
    omega
  · show (0 : Int) = (([] : List T).length : Int)
    simp
  · unfold resident fast_list
    show ↑((List.range (dist16 0 0)).filterMap
        (fun k => (List.replicate q.fast_deque_.circular_buffer_.length
          (none : Option T)).getD (pos_at 0 k % q.fast_deque_.size_) none)) +
      (↑([] : List T) : Multiset T) = 0
    rw [hocc0]
    simp

theorem mem_fast_list_construct_back {T : Type} {f : bounded_dequeue T} (x : T)
    (hf : fast_inv f) (hocc : occupancy f ≤ f.size_ - 3) :
    x ∈ fast_list (construct_in_fast { f with end_ := inc16 f.end_ } f.end_ x) := by
  obtain ⟨sz, buf, st, e⟩ := f
  have Hsz : 3 ≤ sz := hf.hsz
  have Hsz2 : sz < 65536 := hf.hsz2
  have Hlen : buf.length = sz := hf.hlen
  have Hstart : st < 65536 := hf.hstart
  have Hend : e < 65536 := hf.hend
  have Hocc : dist16 e st ≤ sz - 3 := hocc
  have hocc' : dist16 (inc16 e) st = dist16 e st + 1 :=
    dist16_inc_end Hstart Hend (by omega)
  have hse : pos_at st (dist16 e st) = e := pos_at_dist16 Hstart Hend
  have hbuflt : e % sz < buf.length := by
    have : e % sz < sz := Nat.mod_lt _ (by omega)
    omega
  show x ∈ (List.range (dist16 (inc16 e) st)).filterMap
    (fun k => (buf.set (e % sz) (some x)).getD (pos_at st k % sz) none)
  refine List.mem_filterMap.mpr ⟨dist16 e st, ?_, ?_⟩
  · exact List.mem_range.mpr (by rw [hocc']; omega)
  · rw [hse]
    exact getD_set_self _ _ _ hbuflt

theorem mem_fast_list_construct_front {T : Type} {f : bounded_dequeue T} (x : T)
    (hf : fast_inv f) (hocc : occupancy f ≤ f.size_ - 3) :
    x ∈ fast_list (construct_in_fast { f with start := dec16 f.start } (dec16 f.start) x) := by
  obtain ⟨sz, buf, st, e⟩ := f
  have Hsz : 3 ≤ sz := hf.hsz
  have Hsz2 : sz < 65536 := hf.hsz2
  have Hlen : buf.length = sz := hf.hlen
  have Hstart : st < 65536 := hf.hstart
  have Hend : e < 65536 := hf.hend
  have Hocc : dist16 e st ≤ sz - 3 := hocc
  have hocc' : dist16 e (dec16 st) = dist16 e st + 1 :=
    dist16_dec_start Hstart Hend (by omega)
  have hs0 : pos_at (dec16 st) 0 = dec16 st := pos_at_zero (dec16_lt st)
  have hbuflt : dec16 st % sz < buf.length := by
    have : dec16 st % sz < sz := Nat.mod_lt _ (by omega)
    omega
  show x ∈ (List.range (dist16 e (dec16 st))).filterMap
    (fun k => (buf.set (dec16 st % sz) (some x)).getD (pos_at (dec16 st) k % sz) none)
  refine List.mem_filterMap.mpr ⟨0, ?_, ?_⟩
  · exact List.mem_range.mpr (by rw [hocc']; omega)
  · rw [hs0]
    exact getD_set_self _ _ _ hbuflt

theorem mem_resident_push_back {T : Type} {q : concurrent_dequeue T} (x : T)
    (h : dq_inv q) : x ∈ resident (push_back q x) := by
  unfold push_back
  cases hres : reserve_back q.fast_deque_ with
  | none =>
    dsimp only
    unfold resident
    rw [Multiset.mem_add]
    right
    rw [Multiset.mem_coe]
    show x ∈ q.slow_access_elems_ ++ [x]
    simp
  | some fp =>
    obtain ⟨f1, pos⟩ := fp
    dsimp only
    obtain ⟨hle, hf1, hpos⟩ := reserve_back_eq_some hres
    unfold resident
    rw [Multiset.mem_add]
    left
    rw [Multiset.mem_coe]
    show x ∈ fast_list (construct_in_fast f1 pos x)
    rw [hf1, hpos]
    refine mem_fast_list_construct_back x h.fast ?_
    rw [max_dist_eq h.fast.hsz h.fast.hsz2] at hle
    exact hle

theorem mem_resident_push_front {T : Type} {q : concurrent_dequeue T} (x : T)
    (h : dq_inv q) : x ∈ resident (push_front q x) := by
  unfold push_front
  cases hres : reserve_front q.fast_deque_ with
  | none =>
    dsimp only
    unfold resident
    rw [Multiset.mem_add]
    right
    rw [Multiset.mem_coe]
    show x ∈ x :: q.slow_access_elems_
    simp
  | some fp =>
    obtain ⟨f1, pos⟩ := fp
    dsimp only
    obtain ⟨hle, hf1, hpos⟩ := reserve_front_eq_some hres
    unfold resident
    rw [Multiset.mem_add]
    left
    rw [Multiset.mem_coe]
    show x ∈ fast_list (construct_in_fast f1 pos x)
    rw [hf1, hpos]
    refine mem_fast_list_construct_front x h.fast ?_
    rw [max_dist_eq h.fast.hsz h.fast.hsz2] at hle
    exact hle

/-! ## Reachable states of the concurrent deque

A state is reachable when it arises from a freshly constructed deque by a
sequence of public operations.  Every operation completes (see the CAS
loop discussion above), so pushes need no side condition. -/

inductive dq_reach (T : Type) (sz : Nat) : concurrent_dequeue T → Prop where
  | init : 3 ≤ sz → sz < 65536 → dq_reach T sz (mk_dequeue T sz)
  | stepPushBack (q : concurrent_dequeue T) (x : T) :
      dq_reach T sz q → dq_reach T sz (push_back q x)
  | stepPushFront (q : concurrent_dequeue T) (x : T) :
      dq_reach T sz q → dq_reach T sz (push_front q x)
  | stepPopFront (q q' : concurrent_dequeue T) (p : Option T) :
      dq_reach T sz q → try_pop_front q = .popped q' p → dq_reach T sz q'
  | stepPopBack (q q' : concurrent_dequeue T) (p : Option T) :
      dq_reach T sz q → try_pop_back q = .popped q' p → dq_reach T sz q'
  | stepClear (q : concurrent_dequeue T) :
      dq_reach T sz q → dq_reach T sz (unsafe_clear q)

theorem dq_reach_inv {T : Type} {sz : Nat} {q : concurrent_dequeue T}
    (hr : dq_reach T sz q) : dq_inv q ∧ q.fast_deque_.size_ = sz := by
  induction hr with
  | init h3 h4 =>
    obtain ⟨hi, _, hs⟩ := mk_dequeue_spec T sz h3 h4
    exact ⟨hi, hs⟩
  | stepPushBack q0 x hr ih =>
    obtain ⟨hi, hsz⟩ := push_back_inv x ih.1
    exact ⟨hi, hsz.trans ih.2⟩
  | stepPushFront q0 x hr ih =>
    obtain ⟨hi, hsz⟩ := push_front_inv x ih.1
    exact ⟨hi, hsz.trans ih.2⟩
  | stepPopFront q0 q1 p hr hstep ih =>
    obtain ⟨hi, hsz⟩ := try_pop_front_inv ih.1 hstep
    exact ⟨hi, hsz.trans ih.2⟩
  | stepPopBack q0 q1 p hr hstep ih =>
    obtain ⟨hi, hsz⟩ := try_pop_back_inv ih.1 hstep
    exact ⟨hi, hsz.trans ih.2⟩
  | stepClear q0 hr ih =>
    obtain ⟨hi, _, hsz⟩ := unsafe_clear_spec ih.1
    exact ⟨hi, hsz.trans ih.2⟩

/-! ## The slot invariant, for rings whose size divides 2^16 -/

theorem slot_some_of_lt {T : Type} {f : bounded_dequeue T} (hf : fast_slot_inv f) {k : Nat}
    (hk : k < occupancy f) :
    ∃ y, f.circular_buffer_.getD (pos_at f.start k % f.size_) none = some y := by
  have hsz0 : 0 < f.size_ := by have := hf.base.hsz; omega
  have := (hf.hslots (pos_at f.start k % f.size_) (Nat.mod_lt _ hsz0)).mpr ⟨k, hk, rfl⟩
  cases hg : f.circular_buffer_.getD (pos_at f.start k % f.size_) none with
  | none => rw [hg] at this; simp at this
  | some y => exact ⟨y, rfl⟩

theorem slot_none_of_fresh {T : Type} {f : bounded_dequeue T} (hf : fast_slot_inv f) {j : Nat}
    (hj : j < f.size_) (hfresh : ∀ k < occupancy f, pos_at f.start k % f.size_ ≠ j) :
    f.circular_buffer_.getD j none = none := by
  cases hg : f.circular_buffer_.getD j none with
  | none => rfl
  | some y =>
    have := (hf.hslots j hj).mp (by rw [hg]; simp)
    obtain ⟨k, hk, hkj⟩ := this
    exact absurd hkj (hfresh k hk)

set_option maxRecDepth 8000 in
theorem fast_push_back_slot_spec {T : Type} {f f1 : bounded_dequeue T} {pos : Nat} (x : T)
    (hf : fast_slot_inv f) (hres : reserve_back f = some (f1, pos)) :
    fast_slot_inv (construct_in_fast f1 pos x) ∧
      fast_list (construct_in_fast f1 pos x) = fast_list f ++ [x] ∧
      (construct_in_fast f1 pos x).size_ = f.size_ := by
  obtain ⟨hle, hf1, hpos⟩ := reserve_back_eq_some hres
  rw [hf1, hpos]
  obtain ⟨sz, buf, st, e⟩ := f
  have Hsz : 3 ≤ sz := hf.base.hsz
  have Hsz2 : sz < 65536 := hf.base.hsz2
  have Hlen : buf.length = sz := hf.base.hlen
  have Hstart : st < 65536 := hf.base.hstart
  have Hend : e < 65536 := hf.base.hend
  have Hdvd : sz ∣ 65536 := hf.hdvd
  have Hslots : ∀ j < sz, (buf.getD j none).isSome ↔
      ∃ k < dist16 e st, pos_at st k % sz = j := hf.hslots
  have Hdist : ∀ k1 k2, k1 < k2 → k2 < dist16 e st →
      pos_at st k1 % sz ≠ pos_at st k2 % sz := hf.hdist
  have Hle : dist16 e st ≤ max_dist sz := hle
  set occ := dist16 e st with hocc_def
  have hsz0 : 0 < sz := by omega
  have hjlt : e % sz < sz := Nat.mod_lt _ hsz0
  have hocc3 : occ ≤ sz - 3 := by rw [max_dist_eq Hsz Hsz2] at Hle; exact Hle
  have hocc' : dist16 (inc16 e) st = occ + 1 :=
    dist16_inc_end Hstart Hend (by omega)
  have hse : pos_at st occ = e := pos_at_dist16 Hstart Hend
  have hnotin : ∀ k < occ, pos_at st k % sz ≠ e % sz := by
    intro k hk
    have := @fresh_pos_lt sz st occ k Hdvd Hsz (by omega : occ ≤ sz - 2) hk
    rw [hse] at this
    exact this
  have hfreed : buf.getD (e % sz) none = none := by
    cases hg : buf.getD (e % sz) none with
    | none => rfl
    | some y =>
      obtain ⟨k, hk, hkj⟩ := (Hslots (e % sz) hjlt).mp (by rw [hg]; simp)
      exact absurd hkj (hnotin k hk)
  have hbuflt : e % sz < buf.length := by omega
  refine ⟨⟨⟨Hsz, Hsz2, ?_, Hstart, inc16_lt e, ?_⟩, Hdvd, ?_, ?_⟩, ?_, rfl⟩
  · show (buf.set (e % sz) (some x)).length = sz
    simpa using Hlen
  · show dist16 (inc16 e) st ≤ sz - 2
    rw [hocc']; omega
  · show ∀ j < sz, ((buf.set (e % sz) (some x)).getD j none).isSome ↔
      ∃ k < dist16 (inc16 e) st, pos_at st k % sz = j
    intro j hj
    rw [hocc']
    by_cases hje : j = e % sz
    · rw [hje, getD_set_self _ _ _ hbuflt]
      simp only [Option.isSome_some, true_iff]
      exact ⟨occ, by omega, by rw [hse]⟩
    · rw [getD_set_ne _ _ _ _ (fun hh => hje hh.symm)]
      rw [Hslots j hj]
      constructor
      · rintro ⟨k, hk, hkj⟩; exact ⟨k, by omega, hkj⟩
      · rintro ⟨k, hk, hkj⟩
        refine ⟨k, ?_, hkj⟩
        rcases Nat.lt_succ_iff_lt_or_eq.mp hk with hk' | hk'
        · exact hk'
        · subst hk'; rw [hse] at hkj; exact absurd hkj.symm hje
  · show ∀ k1 k2, k1 < k2 → k2 < dist16 (inc16 e) st →
      pos_at st k1 % sz ≠ pos_at st k2 % sz
    intro k1 k2 h12 h2
    rw [hocc'] at h2
    rcases Nat.lt_succ_iff_lt_or_eq.mp h2 with h2' | h2'
    · exact Hdist k1 k2 h12 h2'
    · subst h2'
      rw [hse]
      exact hnotin k1 h12
  · show (List.range (dist16 (inc16 e) st)).filterMap
        (fun k => (buf.set (e % sz) (some x)).getD (pos_at st k % sz) none) =
      (List.range occ).filterMap (fun k => buf.getD (pos_at st k % sz) none) ++ [x]
    rw [hocc', List.range_succ, List.filterMap_append]
    congr 1
    · refine List.filterMap_congr ?_
      intro k hk
      have hk' : k < occ := by simpa using hk
      exact getD_set_ne _ _ _ _ (fun hh => hnotin k hk' hh.symm)
    · rw [List.filterMap_cons, List.filterMap_nil, hse, getD_set_self _ _ _ hbuflt]

set_option maxRecDepth 8000 in
theorem fast_push_front_slot_spec {T : Type} {f f1 : bounded_dequeue T} {pos : Nat} (x : T)
    (hf : fast_slot_inv f) (hres : reserve_front f = some (f1, pos)) :
    fast_slot_inv (construct_in_fast f1 pos x) ∧
      fast_list (construct_in_fast f1 pos x) = x :: fast_list f ∧
      (construct_in_fast f1 pos x).size_ = f.size_ := by
  obtain ⟨hle, hf1, hpos⟩ := reserve_front_eq_some hres
  rw [hf1, hpos]
  obtain ⟨sz, buf, st, e⟩ := f
  have Hsz : 3 ≤ sz := hf.base.hsz
  have Hsz2 : sz < 65536 := hf.base.hsz2
  have Hlen : buf.length = sz := hf.base.hlen
  have Hstart : st < 65536 := hf.base.hstart
  have Hend : e < 65536 := hf.base.hend
  have Hdvd : sz ∣ 65536 := hf.hdvd
  have Hslots : ∀ j < sz, (buf.getD j none).isSome ↔
      ∃ k < dist16 e st, pos_at st k % sz = j := hf.hslots
  have Hdist : ∀ k1 k2, k1 < k2 → k2 < dist16 e st →
      pos_at st k1 % sz ≠ pos_at st k2 % sz := hf.hdist
  have Hle : dist16 e st ≤ max_dist sz := hle
  set occ := dist16 e st with hocc_def
  have hsz0 : 0 < sz := by omega
  have hjlt : dec16 st % sz < sz := Nat.mod_lt _ hsz0
  have hocc3 : occ ≤ sz - 3 := by rw [max_dist_eq Hsz Hsz2] at Hle; exact Hle
  have hocc' : dist16 e (dec16 st) = occ + 1 :=
    dist16_dec_start Hstart Hend (by omega)
  have hs0 : pos_at (dec16 st) 0 = dec16 st := pos_at_zero (dec16_lt st)
  have hnotin : ∀ k < occ, pos_at st k % sz ≠ dec16 st % sz := by
    intro k hk
    exact @fresh_pos_dec16 sz st k Hdvd Hsz (by omega : k ≤ sz - 3)
  have hfreed : buf.getD (dec16 st % sz) none = none := by
    cases hg : buf.getD (dec16 st % sz) none with
    | none => rfl
    | some y =>
      obtain ⟨k, hk, hkj⟩ := (Hslots (dec16 st % sz) hjlt).mp (by rw [hg]; simp)
      exact absurd hkj (hnotin k hk)
  have hbuflt : dec16 st % sz < buf.length := by omega
  refine ⟨⟨⟨Hsz, Hsz2, ?_, dec16_lt st, Hend, ?_⟩, Hdvd, ?_, ?_⟩, ?_, rfl⟩
  · show (buf.set (dec16 st % sz) (some x)).length = sz
    simpa using Hlen
  · show dist16 e (dec16 st) ≤ sz - 2
    rw [hocc']; omega
  · show ∀ j < sz, ((buf.set (dec16 st % sz) (some x)).getD j none).isSome ↔
      ∃ k < dist16 e (dec16 st), pos_at (dec16 st) k % sz = j
    intro j hj
    rw [hocc']
    by_cases hje : j = dec16 st % sz
    · rw [hje, getD_set_self _ _ _ hbuflt]
      simp only [Option.isSome_some, true_iff]
      exact ⟨0, by omega, by rw [hs0]⟩
    · rw [getD_set_ne _ _ _ _ (fun hh => hje hh.symm)]
      rw [Hslots j hj]
      constructor
      · rintro ⟨k, hk, hkj⟩
        exact ⟨k + 1, by omega, by rw [pos_at_dec16_succ]; exact hkj⟩
      · rintro ⟨k, hk, hkj⟩
        cases k with
        | zero => rw [hs0] at hkj; exact absurd hkj.symm hje
        | succ k' =>
          rw [pos_at_dec16_succ] at hkj
          exact ⟨k', by omega, hkj⟩
  · show ∀ k1 k2, k1 < k2 → k2 < dist16 e (dec16 st) →
      pos_at (dec16 st) k1 % sz ≠ pos_at (dec16 st) k2 % sz
    intro k1 k2 h12 h2
    rw [hocc'] at h2
    cases k2 with
    | zero => omega
    | succ k2' =>
      rw [pos_at_dec16_succ]
      cases k1 with
      | zero =>
        rw [hs0]
        exact fun hh => hnotin k2' (by omega) hh.symm
      | succ k1' =>
        rw [pos_at_dec16_succ]
        exact Hdist k1' k2' (by omega) (by omega)
  · show (List.range (dist16 e (dec16 st))).filterMap
        (fun k => (buf.set (dec16 st % sz) (some x)).getD (pos_at (dec16 st) k % sz) none) =
      x :: (List.range occ).filterMap (fun k => buf.getD (pos_at st k % sz) none)
    simp only [hocc', List.range_succ_eq_map, List.filterMap_cons, List.filterMap_map, hs0,
      getD_set_self _ _ _ hbuflt]
    refine congrArg (fun l => x :: l) ?_
    refine List.filterMap_congr ?_
    intro k hk
    have hk' : k < occ := by simpa using hk
    show (buf.set (dec16 st % sz) (some x)).getD (pos_at (dec16 st) (k + 1) % sz) none =
      buf.getD (pos_at st k % sz) none
    rw [pos_at_dec16_succ]
    exact getD_set_ne _ _ _ _ (fun hh => hnotin k hk' hh.symm)

set_option maxRecDepth 8000 in
theorem fast_pop_front_slot_spec {T : Type} {f f1 : bounded_dequeue T} {pos : Nat}
    (hf : fast_slot_inv f) (hcons : consume_front f = some (f1, pos)) :
    ∃ y, (extract_from_fast f1 pos).2 = some y ∧
      fast_slot_inv (extract_from_fast f1 pos).1 ∧
      fast_list f = y :: fast_list (extract_from_fast f1 pos).1 ∧
      (extract_from_fast f1 pos).1.size_ = f.size_ := by
  obtain ⟨hne, hf1, hpos⟩ := consume_front_eq_some hcons
  rw [hf1, hpos]
  obtain ⟨sz, buf, st, e⟩ := f
  have Hsz : 3 ≤ sz := hf.base.hsz
  have Hsz2 : sz < 65536 := hf.base.hsz2
  have Hlen : buf.length = sz := hf.base.hlen
  have Hstart : st < 65536 := hf.base.hstart
  have Hend : e < 65536 := hf.base.hend
  have Hdvd : sz ∣ 65536 := hf.hdvd
  have Hocc : dist16 e st ≤ sz - 2 := hf.base.hocc
  have Hslots : ∀ j < sz, (buf.getD j none).isSome ↔
      ∃ k < dist16 e st, pos_at st k % sz = j := hf.hslots
  have Hdist : ∀ k1 k2, k1 < k2 → k2 < dist16 e st →
      pos_at st k1 % sz ≠ pos_at st k2 % sz := hf.hdist
  have Hne : st ≠ e := hne
  have hsz0 : 0 < sz := by omega
  obtain ⟨m, hm⟩ : ∃ m, dist16 e st = m + 1 := by
    refine ⟨dist16 e st - 1, ?_⟩
    have h0 : dist16 e st ≠ 0 := fun hh => Hne ((dist16_eq_zero_iff Hstart Hend).mp hh)
    omega
  rw [hm] at Hocc Hdist
  have Hslots' : ∀ j < sz, (buf.getD j none).isSome ↔
      ∃ k < m + 1, pos_at st k % sz = j := by
    intro j hj; rw [← hm]; exact Hslots j hj
  have hocc' : dist16 e (inc16 st) = m := by
    have := dist16_inc_start Hstart Hend (by omega)
    rw [hm] at this; simpa using this
  have hst0 : pos_at st 0 = st := pos_at_zero Hstart
  have hnot0 : ∀ k, k + 1 < m + 1 → pos_at st (k + 1) % sz ≠ st % sz := by
    intro k hk hh
    have := Hdist 0 (k + 1) (by omega) hk
    rw [hst0] at this
    exact this hh.symm
  have hbuflt : st % sz < buf.length := by
    have : st % sz < sz := Nat.mod_lt _ hsz0
    omega
  obtain ⟨y, hy⟩ : ∃ y, buf.getD (st % sz) none = some y := by
    have hsome := (Hslots' (st % sz) (Nat.mod_lt _ hsz0)).mpr ⟨0, by omega, by rw [hst0]⟩
    cases hg : buf.getD (st % sz) none with
    | none => rw [hg] at hsome; simp at hsome
    | some y => exact ⟨y, rfl⟩
  refine ⟨y, ?_, ⟨⟨Hsz, Hsz2, ?_, inc16_lt st, Hend, ?_⟩, Hdvd, ?_, ?_⟩, ?_, rfl⟩
  · show buf.getD (st % sz) none = some y
    exact hy
  · show (buf.set (st % sz) none).length = sz
    simpa using Hlen
  · show dist16 e (inc16 st) ≤ sz - 2
    rw [hocc']; omega
  · show ∀ j < sz, ((buf.set (st % sz) none).getD j none).isSome ↔
      ∃ k < dist16 e (inc16 st), pos_at (inc16 st) k % sz = j
    intro j hj
    rw [hocc']
    by_cases hje : j = st % sz
    · rw [hje, getD_set_self _ _ _ hbuflt]
      simp only [Option.isSome_none, Bool.false_eq_true, false_iff]
      rintro ⟨k, hk, hkj⟩
      rw [pos_at_inc16] at hkj
      exact hnot0 k (by omega) hkj
    · rw [getD_set_ne _ _ _ _ (fun hh => hje hh.symm)]
      rw [Hslots' j hj]
      constructor
      · rintro ⟨k, hk, hkj⟩
        cases k with
        | zero => rw [hst0] at hkj; exact absurd hkj.symm hje
        | succ k' =>
          refine ⟨k', by omega, ?_⟩
          rw [pos_at_inc16]; exact hkj
      · rintro ⟨k, hk, hkj⟩
        rw [pos_at_inc16] at hkj
        exact ⟨k + 1, by omega, hkj⟩
  · show ∀ k1 k2, k1 < k2 → k2 < dist16 e (inc16 st) →
      pos_at (inc16 st) k1 % sz ≠ pos_at (inc16 st) k2 % sz
    intro k1 k2 h12 h2
    rw [hocc'] at h2
    rw [pos_at_inc16, pos_at_inc16]
    exact Hdist (k1 + 1) (k2 + 1) (by omega) (by omega)
  · show (List.range (dist16 e st)).filterMap (fun k => buf.getD (pos_at st k % sz) none) =
      y :: (List.range (dist16 e (inc16 st))).filterMap
        (fun k => (buf.set (st % sz) none).getD (pos_at (inc16 st) k % sz) none)
    rw [hm, hocc']
    have hg0 : buf.getD (pos_at st 0 % sz) none = some y := by rw [hst0]; exact hy
    simp only [List.range_succ_eq_map, List.filterMap_cons, List.filterMap_map, hg0]
    refine congrArg (fun l => y :: l) ?_
    refine List.filterMap_congr ?_
    intro k hk
    have hk' : k < m := by simpa using hk
    show buf.getD (pos_at st (k + 1) % sz) none =
      (buf.set (st % sz) none).getD (pos_at (inc16 st) k % sz) none
    rw [pos_at_inc16]
    exact (getD_set_ne _ _ _ _ (fun hh => hnot0 k (by omega) hh.symm)).symm

set_option maxRecDepth 8000 in
theorem fast_pop_back_slot_spec {T : Type} {f f1 : bounded_dequeue T} {pos : Nat}
    (hf : fast_slot_inv f) (hcons : consume_back f = some (f1, pos)) :
    ∃ y, (extract_from_fast f1 pos).2 = some y ∧
      fast_slot_inv (extract_from_fast f1 pos).1 ∧
      fast_list f = fast_list (extract_from_fast f1 pos).1 ++ [y] ∧
      (extract_from_fast f1 pos).1.size_ = f.size_ := by
  obtain ⟨hne, hf1, hpos⟩ := consume_back_eq_some hcons
  rw [hf1, hpos]
  obtain ⟨sz, buf, st, e⟩ := f
  have Hsz : 3 ≤ sz := hf.base.hsz
  have Hsz2 : sz < 65536 := hf.base.hsz2
  have Hlen : buf.length = sz := hf.base.hlen
  have Hstart : st < 65536 := hf.base.hstart
  have Hend : e < 65536 := hf.base.hend
  have Hdvd : sz ∣ 65536 := hf.hdvd
  have Hocc : dist16 e st ≤ sz - 2 := hf.base.hocc
  have Hslots : ∀ j < sz, (buf.getD j none).isSome ↔
      ∃ k < dist16 e st, pos_at st k % sz = j := hf.hslots
  have Hdist : ∀ k1 k2, k1 < k2 → k2 < dist16 e st →
      pos_at st k1 % sz ≠ pos_at st k2 % sz := hf.hdist
  have Hne : st ≠ e := hne
  have hsz0 : 0 < sz := by omega
  obtain ⟨m, hm⟩ : ∃ m, dist16 e st = m + 1 := by
    refine ⟨dist16 e st - 1, ?_⟩
    have h0 : dist16 e st ≠ 0 := fun hh => Hne ((dist16_eq_zero_iff Hstart Hend).mp hh)
    omega
  rw [hm] at Hocc Hdist
  have Hslots' : ∀ j < sz, (buf.getD j none).isSome ↔
      ∃ k < m + 1, pos_at st k % sz = j := by
    intro j hj; rw [← hm]; exact Hslots j hj
  have hocc' : dist16 (dec16 e) st = m := by
    have := dist16_dec_end Hstart Hend (by omega)
    rw [hm] at this; simpa using this
  have hkey : pos_at st m = dec16 e := by
    have := pos_at_pred Hstart Hend hm (by omega)
    simpa using this
  have hnotm : ∀ k < m, pos_at st k % sz ≠ dec16 e % sz := by
    intro k hk hh
    have := Hdist k m hk (by omega)
    rw [hkey] at this
    exact this hh
  have hbuflt : dec16 e % sz < buf.length := by
    have : dec16 e % sz < sz := Nat.mod_lt _ hsz0
    omega
  obtain ⟨y, hy⟩ : ∃ y, buf.getD (dec16 e % sz) none = some y := by
    have hsome := (Hslots' (dec16 e % sz) (Nat.mod_lt _ hsz0)).mpr
      ⟨m, by omega, by rw [hkey]⟩
    cases hg : buf.getD (dec16 e % sz) none with
    | none => rw [hg] at hsome; simp at hsome
    | some y => exact ⟨y, rfl⟩
  refine ⟨y, ?_, ⟨⟨Hsz, Hsz2, ?_, Hstart, dec16_lt e, ?_⟩, Hdvd, ?_, ?_⟩, ?_, rfl⟩
  · show buf.getD (dec16 e % sz) none = some y
    exact hy
  · show (buf.set (dec16 e % sz) none).length = sz
    simpa using Hlen
  · show dist16 (dec16 e) st ≤ sz - 2
    rw [hocc']; omega
  · show ∀ j < sz, ((buf.set (dec16 e % sz) none).getD j none).isSome ↔
      ∃ k < dist16 (dec16 e) st, pos_at st k % sz = j
    intro j hj
    rw [hocc']
    by_cases hje : j = dec16 e % sz
    · rw [hje, getD_set_self _ _ _ hbuflt]
      simp only [Option.isSome_none, Bool.false_eq_true, false_iff]
      rintro ⟨k, hk, hkj⟩
      exact hnotm k hk hkj
    · rw [getD_set_ne _ _ _ _ (fun hh => hje hh.symm)]
      rw [Hslots' j hj]
      constructor
      · rintro ⟨k, hk, hkj⟩
        rcases Nat.lt_succ_iff_lt_or_eq.mp hk with hk' | hk'
        · exact ⟨k, hk', hkj⟩
        · rw [hk', hkey] at hkj
          exact absurd hkj.symm hje
      · rintro ⟨k, hk, hkj⟩
        exact ⟨k, by omega, hkj⟩
  · show ∀ k1 k2, k1 < k2 → k2 < dist16 (dec16 e) st →
      pos_at st k1 % sz ≠ pos_at st k2 % sz
    intro k1 k2 h12 h2
    rw [hocc'] at h2
    exact Hdist k1 k2 h12 (by omega)
  · show (List.range (dist16 e st)).filterMap (fun k => buf.getD (pos_at st k % sz) none) =
      (List.range (dist16 (dec16 e) st)).filterMap
        (fun k => (buf.set (dec16 e % sz) none).getD (pos_at st k % sz) none) ++ [y]
    rw [hm, hocc']
    have hgm : buf.getD (pos_at st m % sz) none = some y := by rw [hkey]; exact hy
    rw [List.range_succ, List.filterMap_append]
    congr 1
    · refine List.filterMap_congr ?_
      intro k hk
      have hk' : k < m := by simpa using hk
      exact (getD_set_ne _ _ _ _ (fun hh => hnotm k hk' hh.symm)).symm
    · rw [List.filterMap_cons, List.filterMap_nil, hgm]

/-! ## Multiset bookkeeping helpers -/

theorem ms_append_left {T : Type} (l1 l2 : List T) (x : T) :
    (↑(l1 ++ [x]) : Multiset T) + ↑l2 = x ::ₘ (↑l1 + ↑l2) := by
  rw [← Multiset.coe_add, Multiset.coe_singleton, ← Multiset.singleton_add]
  abel

theorem ms_cons_left {T : Type} (l1 l2 : List T) (x : T) :
    (↑(x :: l1) : Multiset T) + ↑l2 = x ::ₘ (↑l1 + ↑l2) := by
  rw [← Multiset.cons_coe, Multiset.cons_add]

theorem ms_cons_right {T : Type} (l1 l2 : List T) (x : T) :
    (↑l1 : Multiset T) + ↑(x :: l2) = x ::ₘ (↑l1 + ↑l2) := by
  rw [← Multiset.cons_coe, Multiset.add_cons]

theorem ms_append_right {T : Type} (l1 l2 : List T) (x : T) :
    (↑l1 : Multiset T) + ↑(l2 ++ [x]) = x ::ₘ (↑l1 + ↑l2) := by
  rw [← Multiset.coe_add, Multiset.coe_singleton, ← Multiset.singleton_add]
  abel

/-! ## Specification of the public deque operations under the slot invariant -/

theorem push_back_slot_spec {T : Type} {q : concurrent_dequeue T} (x : T)
    (h : dq_slot_inv q) :
    dq_slot_inv (push_back q x) ∧ resident (push_back q x) = x ::ₘ resident q ∧
      (push_back q x).fast_deque_.size_ = q.fast_deque_.size_ := by
  unfold push_back
  cases hres : reserve_back q.fast_deque_ with
  | none =>
    dsimp only
    refine ⟨⟨h.fast, ?_⟩, ?_, rfl⟩
    · show q.num_elements_slow_ + 1 = ((q.slow_access_elems_ ++ [x]).length : Int)
      rw [List.length_append, h.hslow]
      push_cast
      simp
    · unfold resident
      exact ms_append_right _ _ x
  | some fp =>
    obtain ⟨f1, pos⟩ := fp
    dsimp only
    obtain ⟨hfi, hlist, hsz⟩ := fast_push_back_slot_spec x h.fast hres
    refine ⟨⟨hfi, h.hslow⟩, ?_, hsz⟩
    unfold resident
    show (↑(fast_list (construct_in_fast f1 pos x)) : Multiset T) + ↑q.slow_access_elems_ =
      x ::ₘ (↑(fast_list q.fast_deque_) + ↑q.slow_access_elems_)
    rw [hlist]
    exact ms_append_left _ _ x

theorem push_front_slot_spec {T : Type} {q : concurrent_dequeue T} (x : T)
    (h : dq_slot_inv q) :
    dq_slot_inv (push_front q x) ∧ resident (push_front q x) = x ::ₘ resident q ∧
      (push_front q x).fast_deque_.size_ = q.fast_deque_.size_ := by
  unfold push_front
  cases hres : reserve_front q.fast_deque_ with
  | none =>
    dsimp only
    refine ⟨⟨h.fast, ?_⟩, ?_, rfl⟩
    · show q.num_elements_slow_ + 1 = ((x :: q.slow_access_elems_).length : Int)
      rw [List.length_cons, h.hslow]
      push_cast
      simp
    · unfold resident
      exact ms_cons_right _ _ x
  | some fp =>
    obtain ⟨f1, pos⟩ := fp
    dsimp only
    obtain ⟨hfi, hlist, hsz⟩ := fast_push_front_slot_spec x h.fast hres
    refine ⟨⟨hfi, h.hslow⟩, ?_, hsz⟩
    unfold resident
    show (↑(fast_list (construct_in_fast f1 pos x)) : Multiset T) + ↑q.slow_access_elems_ =
      x ::ₘ (↑(fast_list q.fast_deque_) + ↑q.slow_access_elems_)
    rw [hlist]
    exact ms_cons_left _ _ x

theorem try_pop_front_slot_spec {T : Type} {q q' : concurrent_dequeue T} {p : Option T}
    (h : dq_slot_inv q) (hp : try_pop_front q = .popped q' p) :
    ∃ y, p = some y ∧ dq_slot_inv q' ∧ resident q = y ::ₘ resident q' ∧
      q'.fast_deque_.size_ = q.fast_deque_.size_ := by
  unfold try_pop_front at hp
  cases hcons : consume_front q.fast_deque_ with
  | some fp =>
    obtain ⟨f1, pos⟩ := fp
    rw [hcons] at hp
    dsimp only at hp
    cases hp
    obtain ⟨y, hy2, hfi, hlist, hsz⟩ := fast_pop_front_slot_spec h.fast hcons
    refine ⟨y, hy2, ⟨hfi, h.hslow⟩, ?_, hsz⟩
    unfold resident
    show (↑(fast_list q.fast_deque_) : Multiset T) + ↑q.slow_access_elems_ =
      y ::ₘ (↑(fast_list (extract_from_fast f1 pos).1) + ↑q.slow_access_elems_)
    rw [hlist]
    exact ms_cons_left _ _ y
  | none =>
    rw [hcons] at hp
    dsimp only at hp
    by_cases hnum : 0 < q.num_elements_slow_
    · rw [if_pos hnum] at hp
      cases hsl : q.slow_access_elems_ with
      | nil => rw [hsl] at hp; simp at hp
      | cons x0 rest =>
        rw [hsl] at hp
        dsimp only at hp
        cases hp
        refine ⟨x0, rfl, ⟨h.fast, ?_⟩, ?_, rfl⟩
        · show q.num_elements_slow_ - 1 = (rest.length : Int)
          rw [h.hslow, hsl]
          push_cast
          simp
        · unfold resident
          show (↑(fast_list q.fast_deque_) : Multiset T) + ↑q.slow_access_elems_ =
            x0 ::ₘ (↑(fast_list q.fast_deque_) + ↑rest)
          rw [hsl]
          exact ms_cons_right _ _ x0
    · rw [if_neg hnum] at hp
      simp at hp

theorem try_pop_back_slot_spec {T : Type} {q q' : concurrent_dequeue T} {p : Option T}
    (h : dq_slot_inv q) (hp : try_pop_back q = .popped q' p) :
    ∃ y, p = some y ∧ dq_slot_inv q' ∧ resident q = y ::ₘ resident q' ∧
      q'.fast_deque_.size_ = q.fast_deque_.size_ := by
  unfold try_pop_back at hp
  cases hcons : consume_back q.fast_deque_ with
  | some fp =>
    obtain ⟨f1, pos⟩ := fp
    rw [hcons] at hp
    dsimp only at hp
    cases hp
    obtain ⟨y, hy2, hfi, hlist, hsz⟩ := fast_pop_back_slot_spec h.fast hcons
    refine ⟨y, hy2, ⟨hfi, h.hslow⟩, ?_, hsz⟩
    unfold resident
    show (↑(fast_list q.fast_deque_) : Multiset T) + ↑q.slow_access_elems_ =
      y ::ₘ (↑(fast_list (extract_from_fast f1 pos).1) + ↑q.slow_access_elems_)
    rw [hlist]
    exact ms_append_left _ _ y
  | none =>
    rw [hcons] at hp
    dsimp only at hp
    by_cases hnum : 0 < q.num_elements_slow_
    · rw [if_pos hnum] at hp
      cases hsl : q.slow_access_elems_.getLast? with
      | none => rw [hsl] at hp; simp at hp
      | some x0 =>
        rw [hsl] at hp
        dsimp only at hp
        cases hp
        have hne : q.slow_access_elems_ ≠ [] := by
          intro he; rw [he] at hsl; simp at hsl
        have hsplit : q.slow_access_elems_.dropLast ++ [x0] = q.slow_access_elems_ :=
          List.dropLast_append_getLast? x0 hsl
        have hlen1 : 1 ≤ q.slow_access_elems_.length := by
          cases hq : q.slow_access_elems_ with
          | nil => exact absurd hq hne
          | cons a l => simp [hq]
        refine ⟨x0, rfl, ⟨h.fast, ?_⟩, ?_, rfl⟩
        · show q.num_elements_slow_ - 1 = (q.slow_access_elems_.dropLast.length : Int)
          rw [List.length_dropLast, h.hslow]
          push_cast
          omega
        · unfold resident
          show (↑(fast_list q.fast_deque_) : Multiset T) + ↑q.slow_access_elems_ =
            x0 ::ₘ (↑(fast_list q.fast_deque_) + ↑q.slow_access_elems_.dropLast)
          have hms := ms_append_right (fast_list q.fast_deque_)
            q.slow_access_elems_.dropLast x0
          rw [hsplit] at hms
          exact hms
    · rw [if_neg hnum] at hp
      simp at hp

theorem mk_dequeue_slot_spec (T : Type) (sz : Nat) (h3 : 3 ≤ sz) (h4 : sz < 65536)
    (hdvd : sz ∣ 65536) : dq_slot_inv (mk_dequeue T sz) := by
  obtain ⟨hi, _, hsz⟩ := mk_dequeue_spec T sz h3 h4
  have hocc0 : dist16 0 0 = 0 := by unfold dist16; omega
  refine ⟨⟨hi.fast, ?_, ?_, ?_⟩, hi.hslow⟩
  · show sz % 65536 ∣ 65536
    rw [Nat.mod_eq_of_lt h4]
    exact hdvd
  · show ∀ j < sz % 65536,
        ((List.replicate sz (none : Option T)).getD j none).isSome ↔
          ∃ k < dist16 0 0, pos_at 0 k % (sz % 65536) = j
    intro j hj
    rw [getD_replicate, hocc0]
    simp
  · show ∀ k1 k2, k1 < k2 → k2 < dist16 0 0 →
        pos_at 0 k1 % (sz % 65536) ≠ pos_at 0 k2 % (sz % 65536)
    intro k1 k2 h12 h2
    rw [hocc0] at h2
    omega

/-! ## Trace semantics: sequences of pushes and pops -/

/-- A public operation of the deque, as recorded in a trace. -/
inductive dq_op (T : Type) where
  | opPushBack (x : T)
  | opPushFront (x : T)
  | opPopFront
  | opPopBack
deriving DecidableEq, Repr

/-- Run a trace of operations from a state; every operation completes.
The result is the final state together with the list of values moved out
by successful pops (`some x` for a resident element, `none` for a
moved-from husk).  A pop on an empty deque returns `false` in the C++
code and leaves the state unchanged. -/
def run_ops {T : Type} (q : concurrent_dequeue T) : List (dq_op T) →
    concurrent_dequeue T × List (Option T)
  | [] => (q, [])
  | op :: rest =>
    match op with
    | .opPushBack x => run_ops (push_back q x) rest
    | .opPushFront x => run_ops (push_front q x) rest
    | .opPopFront =>
      match try_pop_front q with
      | .popped q1 p =>
          ((run_ops q1 rest).1, p :: (run_ops q1 rest).2)
      | .empty => run_ops q rest
    | .opPopBack =>
      match try_pop_back q with
      | .popped q1 p =>
          ((run_ops q1 rest).1, p :: (run_ops q1 rest).2)
      | .empty => run_ops q rest

/-- The multiset of elements pushed by a trace. -/
def pushed_of {T : Type} : List (dq_op T) → Multiset T
  | [] => 0
  | .opPushBack x :: rest => x ::ₘ pushed_of rest
  | .opPushFront x :: rest => x ::ₘ pushed_of rest
  | .opPopFront :: rest => pushed_of rest
  | .opPopBack :: rest => pushed_of rest

theorem pushed_of_nil {T : Type} : pushed_of ([] : List (dq_op T)) = 0 := rfl

theorem pushed_of_push_back {T : Type} (x : T) (rest : List (dq_op T)) :
    pushed_of (.opPushBack x :: rest) = x ::ₘ pushed_of rest := rfl

theorem pushed_of_push_front {T : Type} (x : T) (rest : List (dq_op T)) :
    pushed_of (.opPushFront x :: rest) = x ::ₘ pushed_of rest := rfl

theorem pushed_of_pop_front {T : Type} (rest : List (dq_op T)) :
    pushed_of (.opPopFront :: rest) = pushed_of rest := rfl

theorem pushed_of_pop_back {T : Type} (rest : List (dq_op T)) :
    pushed_of (.opPopBack :: rest) = pushed_of rest := rfl

theorem run_ops_nil {T : Type} (q : concurrent_dequeue T) :
    run_ops q [] = (q, []) := rfl

theorem run_ops_push_back {T : Type} (q : concurrent_dequeue T) (x : T)
    (rest : List (dq_op T)) :
    run_ops q (.opPushBack x :: rest) = run_ops (push_back q x) rest := rfl

theorem run_ops_push_front {T : Type} (q : concurrent_dequeue T) (x : T)
    (rest : List (dq_op T)) :
    run_ops q (.opPushFront x :: rest) = run_ops (push_front q x) rest := rfl

theorem run_ops_pop_front {T : Type} (q : concurrent_dequeue T)
    (rest : List (dq_op T)) :
    run_ops q (.opPopFront :: rest) =
      (match try_pop_front q with
        | .popped q1 p => ((run_ops q1 rest).1, p :: (run_ops q1 rest).2)
        | .empty => run_ops q rest) := rfl

theorem run_ops_pop_back {T : Type} (q : concurrent_dequeue T)
    (rest : List (dq_op T)) :
    run_ops q (.opPopBack :: rest) =
      (match try_pop_back q with
        | .popped q1 p => ((run_ops q1 rest).1, p :: (run_ops q1 rest).2)
        | .empty => run_ops q rest) := rfl

theorem run_ops_conserves {T : Type} {q qf : concurrent_dequeue T}
    {ops : List (dq_op T)} {out : List (Option T)}
    (h : dq_slot_inv q) (hrun : run_ops q ops = (qf, out)) :
    ↑(out.filterMap id) + resident qf = resident q + pushed_of ops ∧
      ∀ o ∈ out, o.isSome := by
  induction ops generalizing q out with
  | nil =>
    rw [run_ops_nil] at hrun
    cases hrun
    refine ⟨?_, by simp⟩
    show (↑(List.filterMap id ([] : List (Option T))) : Multiset T) + resident qf =
      resident qf + pushed_of ([] : List (dq_op T))
    rw [pushed_of_nil]
    simp
  | cons op rest ih =>
    cases op with
    | opPushBack x =>
      rw [run_ops_push_back] at hrun
      obtain ⟨hi1, hres1, _⟩ := push_back_slot_spec x h
      obtain ⟨hih, hsome⟩ := ih hi1 hrun
      refine ⟨?_, hsome⟩
      rw [pushed_of_push_back, hih, hres1]
      rw [← Multiset.singleton_add, ← Multiset.singleton_add]
      abel
    | opPushFront x =>
      rw [run_ops_push_front] at hrun
      obtain ⟨hi1, hres1, _⟩ := push_front_slot_spec x h
      obtain ⟨hih, hsome⟩ := ih hi1 hrun
      refine ⟨?_, hsome⟩
      rw [pushed_of_push_front, hih, hres1]
      rw [← Multiset.singleton_add, ← Multiset.singleton_add]
      abel
    | opPopFront =>
      rw [run_ops_pop_front] at hrun
      cases hstep : try_pop_front q with
      | empty =>
        rw [hstep] at hrun
        dsimp only at hrun
        obtain ⟨hih, hsome⟩ := ih h hrun
        rw [pushed_of_pop_front]
        exact ⟨hih, hsome⟩
      | popped q1 p =>
        rw [hstep] at hrun
        dsimp only at hrun
        obtain ⟨y, hpy, hi1, hres1, _⟩ := try_pop_front_slot_spec h hstep
        cases hrest : run_ops q1 rest with
        | mk q2 out2 =>
          rw [hrest] at hrun
          dsimp only at hrun
          cases hrun
          obtain ⟨hih, hsome⟩ := ih hi1 hrest
          constructor
          · show (↑((p :: out2).filterMap id) : Multiset T) + resident qf =
              resident q + pushed_of (.opPopFront :: rest)
            rw [pushed_of_pop_front, hres1, hpy]
            rw [List.filterMap_cons]
            dsimp only [id]
            rw [← Multiset.cons_coe, Multiset.cons_add, hih]
            simp only [← Multiset.singleton_add]
            abel
          · intro o ho
            rcases List.mem_cons.mp ho with ho' | ho'
            · rw [ho', hpy]; rfl
            · exact hsome o ho'
    | opPopBack =>
      rw [run_ops_pop_back] at hrun
      cases hstep : try_pop_back q with
      | empty =>
        rw [hstep] at hrun
        dsimp only at hrun
        obtain ⟨hih, hsome⟩ := ih h hrun
        rw [pushed_of_pop_back]
        exact ⟨hih, hsome⟩
      | popped q1 p =>
        rw [hstep] at hrun
        dsimp only at hrun
        obtain ⟨y, hpy, hi1, hres1, _⟩ := try_pop_back_slot_spec h hstep
        cases hrest : run_ops q1 rest with
        | mk q2 out2 =>
          rw [hrest] at hrun
          dsimp only at hrun
          cases hrun
          obtain ⟨hih, hsome⟩ := ih hi1 hrest
          constructor
          · show (↑((p :: out2).filterMap id) : Multiset T) + resident qf =
              resident q + pushed_of (.opPopBack :: rest)
            rw [pushed_of_pop_back, hres1, hpy]
            rw [List.filterMap_cons]
            dsimp only [id]
            rw [← Multiset.cons_coe, Multiset.cons_add, hih]
            simp only [← Multiset.singleton_add]
            abel
          · intro o ho
            rcases List.mem_cons.mp ho with ho' | ho'
            · rw [ho', hpy]; rfl
            · exact hsome o ho'

/-! ## `concore/spawn.hpp`: wake-worker flags of the initializer-list overloads

`spawn({f1, …, fn}, wake)` iterates over the functors with a counter
initialised to `n`; each task's `wake_workers` argument is
`count-- > 0 || wake` (post-decrement, so the value tested at iteration
`i` is `n - i`).  `spawn_and_wait({f1, …, fn})` computes `count-- > 0`
with the same counter.  The lists below record, head first, the
`wake_workers` value passed for each task of the list. -/

/-- Per-task `wake_workers` flags computed by
`spawn(std::initializer_list<task_function>&&, bool wake_workers)`:
iteration `i` of the loop evaluates `count-- > 0 || wake_workers` where
the counter starts at the list's size. -/
def spawn_list_wake_flags : Nat → Bool → List Bool
  | 0, _ => []
  | count + 1, wake => (decide (0 < count + 1) || wake) :: spawn_list_wake_flags count wake

/-- Per-task `wake_workers` flags computed by
`spawn_and_wait(std::initializer_list<task_function>&&, bool)`: iteration
`i` evaluates `count-- > 0` where the counter starts at the list's
size.  The source comment says this should not wake on the last task. -/
def spawn_and_wait_wake_flags : Nat → List Bool
  | 0 => []
  | count + 1 => decide (0 < count + 1) :: spawn_and_wait_wake_flags count

theorem spawn_list_wake_flags_all_true (n : Nat) (wake : Bool) :
    spawn_list_wake_flags n wake = List.replicate n true := by
  induction n with
  | zero => rfl
  | succ k ih =>
    unfold spawn_list_wake_flags
    rw [ih]
    simp [List.replicate_succ]

theorem spawn_and_wait_wake_flags_all_true (n : Nat) :
    spawn_and_wait_wake_flags n = List.replicate n true := by
  induction n with
  | zero => rfl
  | succ k ih =>
    unfold spawn_and_wait_wake_flags
    rw [ih]
    simp [List.replicate_succ]

/-! ## `concore/spawn.hpp`: task groups attached by the functor overloads -/

/-- Modelled from the spec: a task group is a shared
cancellation/join scope with an optional parent link forming a tree
(`task.hpp` is not under `src/`; §3 of the spec describes the data
model).  Groups are identified by an id here. -/
structure task_group where
  id : Nat
  parent : Option Nat
deriving DecidableEq, Repr

/-- Modelled from the spec: a task carries a thunk and an optional
reference to a task group (`task.hpp` is not under `src/`).  The thunk is
kept abstract. -/
structure task_model (F : Type) where
  fn : F
  grp : Option task_group
deriving DecidableEq, Repr

/-- The functor overload `spawn(F&& ftor, bool wake_workers)`
(spawn.hpp lines 39-43): it reads `task_group::current_task_group()` and
constructs `task(ftor, grp)`, spawning it with the given wake flag.  The
result is the `(task, wake_workers)` pair passed to
`task_system::spawn`. -/
def spawn_functor {F : Type} (current : Option task_group) (ftor : F)
    (wake_workers : Bool) : task_model F × Bool :=
  ({ fn := ftor, grp := current }, wake_workers)

/-- The functor overload `spawn_and_wait(F&& ftor)` (spawn.hpp lines
56-66): it creates a fresh group whose parent is the current group
(`task_group::create(task_group::current_task_group())`), constructs
`task(ftor, grp)` and spawns it without waking workers.  `fresh` is the id
of the newly created group.  The result is the spawned task, the created
group, and the wake flag. -/
def spawn_and_wait_functor {F : Type} (fresh : Nat) (current : Option task_group)
    (ftor : F) : task_model F × task_group × Bool :=
  let grp : task_group := { id := fresh, parent := current.map task_group.id }
  ({ fn := ftor, grp := some grp }, grp, false)

/-! ## `concore/rw_serializer.hpp`: the readers/writer serializer

The header under `src/` declares `rw_serializer`, its `reader_type` /
`writer_type` executors and the guarantees (at most one WRITE at a time,
no READ in parallel with a WRITE, WRITEs executed in enqueue order), but
the shared `impl` object lives in a source file that is not part of
`src/`.  The transition system below is modelled from the spec, §4.7:
a packed triple `(writers_pending, writers_running, readers_running)`
(represented here by the lengths of the corresponding lists) plus two
FIFOs `pending_writes` and `pending_reads`, with every transition executed
atomically under the state mutex. -/

/-- Modelled from the spec: the state of `rw_serializer::impl`
(the implementation is not under `src/`).  `running_writes` and
`running_reads` hold the tasks currently submitted for execution;
`enqueued_writes` and `started_writes` record the history of WRITE
enqueues and WRITE starts, in order, for stating the ordering
guarantee. -/
structure rw_state where
  pending_writes : List Nat
  pending_reads : List Nat
  running_writes : List Nat
  running_reads : List Nat
  enqueued_writes : List Nat
  started_writes : List Nat
deriving DecidableEq, Repr

/-- The initial rw_serializer state: nothing pending, nothing running. -/
def rw_init : rw_state :=
  { pending_writes := []
    pending_reads := []
    running_writes := []
    running_reads := []
    enqueued_writes := []
    started_writes := [] }

/-- Modelled from the spec: start the next pending WRITE (pop one from
`pending_writes`, decrement `writers_pending`, set `writers_running` to
one, submit the task). -/
def start_next_writer (s : rw_state) : rw_state :=
  match s.pending_writes with
  | [] => s
  | w :: rest =>
      { s with
          pending_writes := rest
          running_writes := w :: s.running_writes
          started_writes := s.started_writes ++ [w] }

/-- Modelled from the spec: WRITE enqueue — append to `pending_writes`
(incrementing `writers_pending`), then start the next writer if no writer
is running and no reader is running. -/
def enqueue_write (s : rw_state) (w : Nat) : rw_state :=
  if s.running_writes = [] ∧ s.running_reads = [] then
    start_next_writer
      { s with
          pending_writes := s.pending_writes ++ [w]
          enqueued_writes := s.enqueued_writes ++ [w] }
  else
    { s with
        pending_writes := s.pending_writes ++ [w]
        enqueued_writes := s.enqueued_writes ++ [w] }

/-- Modelled from the spec: READ enqueue — if no writer is running and no
writer is pending, submit directly (incrementing `readers_running`); else
append to `pending_reads`. -/
def enqueue_read (s : rw_state) (r : Nat) : rw_state :=
  if s.running_writes = [] ∧ s.pending_writes = [] then
    { s with running_reads := r :: s.running_reads }
  else
    { s with pending_reads := s.pending_reads ++ [r] }

/-- Modelled from the spec: WRITE completion — decrement
`writers_running`; then if `pending_writes` is non-empty start the next
writer, else drain all pending READs, incrementing `readers_running` by
the count drained.  `none` when `w` is not a running writer (the event
cannot occur). -/
def finish_write (s : rw_state) (w : Nat) : Option rw_state :=
  if w ∈ s.running_writes then
    some (if s.pending_writes = [] then
            { s with
                running_writes := s.running_writes.erase w
                running_reads := s.running_reads ++ s.pending_reads
                pending_reads := [] }
          else start_next_writer { s with running_writes := s.running_writes.erase w })
  else none

/-- Modelled from the spec: READ completion — decrement
`readers_running`; if it reaches zero and a WRITE is pending, start it.
`none` when `r` is not a running reader (the event cannot occur). -/
def finish_read (s : rw_state) (r : Nat) : Option rw_state :=
  if r ∈ s.running_reads then
    some (if s.running_reads.erase r = [] ∧ s.pending_writes ≠ [] then
            start_next_writer { s with running_reads := s.running_reads.erase r }
          else { s with running_reads := s.running_reads.erase r })
  else none

/-- Reachable states of the rw_serializer transition system. -/
inductive rw_reach : rw_state → Prop where
  | init : rw_reach rw_init
  | stepEnqW (s : rw_state) (w : Nat) : rw_reach s → rw_reach (enqueue_write s w)
  | stepEnqR (s : rw_state) (r : Nat) : rw_reach s → rw_reach (enqueue_read s r)
  | stepFinW (s s' : rw_state) (w : Nat) :
      rw_reach s → finish_write s w = some s' → rw_reach s'
  | stepFinR (s s' : rw_state) (r : Nat) :
      rw_reach s → finish_read s r = some s' → rw_reach s'

/-- The safety invariant of the rw_serializer: at most one WRITE runs, no
READ runs while a WRITE runs, and the WRITE enqueue history is the WRITE
start history followed by the pending WRITEs (so WRITEs start in enqueue
order). -/
structure rw_inv (s : rw_state) : Prop where
  hw1 : s.running_writes.length ≤ 1
  hwr : s.running_writes ≠ [] → s.running_reads = []
  horder : s.enqueued_writes = s.started_writes ++ s.pending_writes

theorem list_eq_singleton_of_mem_of_len_le {w : Nat} {l : List Nat}
    (hm : w ∈ l) (hl : l.length ≤ 1) : l = [w] := by
  cases l with
  | nil => simp at hm
  | cons a rest =>
    cases rest with
    | nil => simp_all
    | cons b rest2 => simp at hl

theorem start_next_writer_inv {s : rw_state}
    (h1 : s.running_writes = []) (h2 : s.running_reads = [])
    (horder : s.enqueued_writes = s.started_writes ++ s.pending_writes) :
    rw_inv (start_next_writer s) := by
  unfold start_next_writer
  cases hp : s.pending_writes with
  | nil => exact ⟨by simp [h1], fun _ => h2, by rw [horder, hp]⟩
  | cons w rest =>
    refine ⟨?_, fun _ => h2, ?_⟩
    · simp [h1]
    · show s.enqueued_writes = (s.started_writes ++ [w]) ++ rest
      rw [horder, hp]
      simp

theorem rw_reach_inv {s : rw_state} (hr : rw_reach s) : rw_inv s := by
  induction hr with
  | init => exact ⟨by simp [rw_init], by simp [rw_init], by simp [rw_init]⟩
  | stepEnqW s0 w hr ih =>
    unfold enqueue_write
    split
    · next hcond =>
      refine start_next_writer_inv hcond.1 hcond.2 ?_
      show s0.enqueued_writes ++ [w] = s0.started_writes ++ (s0.pending_writes ++ [w])
      rw [ih.horder, List.append_assoc]
    · next hcond =>
      refine ⟨ih.hw1, ih.hwr, ?_⟩
      show s0.enqueued_writes ++ [w] = s0.started_writes ++ (s0.pending_writes ++ [w])
      rw [ih.horder, List.append_assoc]
  | stepEnqR s0 r hr ih =>
    unfold enqueue_read
    split
    · next hcond =>
      refine ⟨ih.hw1, ?_, ih.horder⟩
      intro hne
      exact absurd hcond.1 hne
    · exact ⟨ih.hw1, ih.hwr, ih.horder⟩
  | stepFinW s0 s' w hr hfin ih =>
    unfold finish_write at hfin
    split at hfin
    · next hmem =>
      have hrw : s0.running_writes = [w] := list_eq_singleton_of_mem_of_len_le hmem ih.hw1
      have herase : s0.running_writes.erase w = [] := by rw [hrw]; simp
      have hreads : s0.running_reads = [] := ih.hwr (by rw [hrw]; simp)
      cases hfin
      split
      · refine ⟨?_, ?_, ?_⟩
        · show (s0.running_writes.erase w).length ≤ 1
          rw [herase]; simp
        · show s0.running_writes.erase w ≠ [] → s0.running_reads ++ s0.pending_reads = []
          intro hne
          exact absurd herase hne
        · exact ih.horder
      · exact start_next_writer_inv herase hreads ih.horder
    · exact absurd hfin (by simp)
  | stepFinR s0 s' r hr hfin ih =>
    unfold finish_read at hfin
    split at hfin
    · next hmem =>
      have hwempty : s0.running_writes = [] := by
        by_contra hne
        have := ih.hwr hne
        rw [this] at hmem
        simp at hmem
      cases hfin
      split
      · next hcond =>
        exact start_next_writer_inv hwempty hcond.1 ih.horder
      · refine ⟨ih.hw1, ?_, ih.horder⟩
        intro hne
        exact absurd hwempty hne
    · exact absurd hfin (by simp)

/-! ## The verified claims -/

/-- Claim C1: for the rw_serializer, at most one WRITE task executes at a
time, no READ task executes concurrently with any WRITE task, and WRITE
tasks are executed in the order in which they were enqueued on the writer
executor.  In the transition system modelled from the spec, every
reachable state has at most one running WRITE, no running READ while a
WRITE runs, and its WRITE enqueue history equals its WRITE start history
followed by the pending WRITEs, so WRITEs start (and, being exclusive,
execute) in enqueue order. -/
theorem rw_serializer_exclusion_and_order {s : rw_state} (hr : rw_reach s) :
    s.running_writes.length ≤ 1 ∧
    (s.running_writes ≠ [] → s.running_reads = []) ∧
    s.enqueued_writes = s.started_writes ++ s.pending_writes :=
  ⟨(rw_reach_inv hr).hw1, (rw_reach_inv hr).hwr, (rw_reach_inv hr).horder⟩

theorem rw_serializer_exclusion_and_order_witness :
    ({ pending_writes := []
       pending_reads := []
       running_writes := []
       running_reads := [20]
       enqueued_writes := [10]
       started_writes := [10] } : rw_state).running_writes.length ≤ 1 ∧
    (({ pending_writes := []
        pending_reads := []
        running_writes := []
        running_reads := [20]
        enqueued_writes := [10]
        started_writes := [10] } : rw_state).running_writes ≠ [] →
      ({ pending_writes := []
         pending_reads := []
         running_writes := []
         running_reads := [20]
         enqueued_writes := [10]
         started_writes := [10] } : rw_state).running_reads = []) ∧
    ({ pending_writes := []
       pending_reads := []
       running_writes := []
       running_reads := [20]
       enqueued_writes := [10]
       started_writes := [10] } : rw_state).enqueued_writes =
      ({ pending_writes := []
         pending_reads := []
         running_writes := []
         running_reads := [20]
         enqueued_writes := [10]
         started_writes := [10] } : rw_state).started_writes ++
        ({ pending_writes := []
           pending_reads := []
           running_writes := []
           running_reads := [20]
           enqueued_writes := [10]
           started_writes := [10] } : rw_state).pending_writes := by
  have h1 : rw_reach (enqueue_write rw_init 10) := rw_reach.stepEnqW rw_init 10 rw_reach.init
  have h2 : rw_reach (enqueue_read (enqueue_write rw_init 10) 20) :=
    rw_reach.stepEnqR (enqueue_write rw_init 10) 20 h1
  have h3 : finish_write (enqueue_read (enqueue_write rw_init 10) 20) 10 =
      some { pending_writes := []
             pending_reads := []
             running_writes := []
             running_reads := [20]
             enqueued_writes := [10]
             started_writes := [10] } := by decide
  exact rw_serializer_exclusion_and_order
    (rw_reach.stepFinW (enqueue_read (enqueue_write rw_init 10) 20) _ 10 h2 h3)

/-- Claim C2 (counterexample): a fast ring with 8 slots reaches, by five
plain pushes, a state holding 8 − 3 = 5 elements; the sixth push does NOT
fall back to the slow path but succeeds on the fast ring, whose occupancy
then is 8 − 2 = 6, exceeding size − 3.  This refutes both the stated
fallback condition (fallback already at size − 3 resident elements) and
the stated bound (occupancy never exceeding size − 3). -/
theorem fast_ring_capacity_counterexample :
    dq_reach Nat 8
      { fast_deque_ :=
          { size_ := 8
            circular_buffer_ := [some 1, some 2, some 3, some 4, some 5, none, none, none]
            start := 0
            end_ := 5 }
        slow_access_elems_ := []
        num_elements_slow_ := 0 } ∧
    occupancy ({ size_ := 8
                 circular_buffer_ := [some 1, some 2, some 3, some 4, some 5, none, none, none]
                 start := 0
                 end_ := 5 } : bounded_dequeue Nat) = 8 - 3 ∧
    push_back
      { fast_deque_ :=
          { size_ := 8
            circular_buffer_ := [some 1, some 2, some 3, some 4, some 5, none, none, none]
            start := 0
            end_ := 5 }
        slow_access_elems_ := []
        num_elements_slow_ := 0 } 6 =
      { fast_deque_ :=
          { size_ := 8
            circular_buffer_ := [some 1, some 2, some 3, some 4, some 5, some 6, none, none]
            start := 0
            end_ := 6 }
        slow_access_elems_ := []
        num_elements_slow_ := 0 } ∧
    ¬ occupancy ({ size_ := 8
                   circular_buffer_ := [some 1, some 2, some 3, some 4, some 5, some 6, none, none]
                   start := 0
                   end_ := 6 } : bounded_dequeue Nat) ≤ 8 - 3 := by
  refine ⟨?_, by decide, by decide, by decide⟩
  have h5 : dq_reach Nat 8
      (push_back (push_back (push_back (push_back (push_back (mk_dequeue Nat 8) 1) 2) 3) 4) 5) :=
    dq_reach.stepPushBack _ 5 (dq_reach.stepPushBack _ 4 (dq_reach.stepPushBack _ 3
      (dq_reach.stepPushBack _ 2 (dq_reach.stepPushBack _ 1
        (dq_reach.init (by decide) (by decide))))))
  have e : push_back (push_back (push_back (push_back (push_back (mk_dequeue Nat 8) 1) 2) 3) 4) 5 =
      { fast_deque_ :=
          { size_ := 8
            circular_buffer_ := [some 1, some 2, some 3, some 4, some 5, none, none, none]
            start := 0
            end_ := 5 }
        slow_access_elems_ := []
        num_elements_slow_ := 0 } := by decide
  rw [e] at h5
  exact h5

/-- Claim C2 (as amended): for every reachable state of the deque with
`size` slots, the fast-ring occupancy is at most size − 2, and a push
falls back to the slow path exactly when the occupancy exceeds
size − 3 — that is, the fast ring holds up to size − 2 elements, one more
than the claim stated. -/
theorem fast_ring_occupancy_bound {T : Type} {sz : Nat} {q : concurrent_dequeue T}
    (hr : dq_reach T sz q) :
    occupancy q.fast_deque_ ≤ sz - 2 ∧
    (reserve_back q.fast_deque_ = none ↔ sz - 3 < occupancy q.fast_deque_) := by
  obtain ⟨hi, hsz⟩ := dq_reach_inv hr
  constructor
  · have := hi.fast.hocc
    rw [hsz] at this
    exact this
  · rw [reserve_back_eq_none, max_dist_eq hi.fast.hsz hi.fast.hsz2, hsz]
    exact Iff.rfl

theorem fast_ring_occupancy_bound_witness :
    occupancy (mk_dequeue Nat 8).fast_deque_ ≤ 8 - 2 ∧
    (reserve_back (mk_dequeue Nat 8).fast_deque_ = none ↔
      8 - 3 < occupancy (mk_dequeue Nat 8).fast_deque_) :=
  fast_ring_occupancy_bound (dq_reach.init (by decide) (by decide))

/-- Claim C3: on the fast ring, reserve_back fails exactly when
(end − start) mod 2^16 exceeds size − 3 and otherwise CASes the packed
pair to (start, end + 1), yielding the old end; consume_front fails
exactly when start = end and otherwise CASes to (start + 1, end),
yielding the old start. -/
theorem reserve_back_consume_front_spec {T : Type} (q : bounded_dequeue T)
    (h3 : 3 ≤ q.size_) (h4 : q.size_ < 65536)
    (hs : q.start < 65536) (he : q.end_ < 65536) :
    reserve_back q = (if q.size_ - 3 < dist16 q.end_ q.start then none
      else some ({ q with end_ := inc16 q.end_ }, q.end_)) ∧
    consume_front q = (if q.start = q.end_ then none
      else some ({ q with start := inc16 q.start }, q.start)) := by
  constructor
  · unfold reserve_back
    rw [max_dist_eq h3 h4]
  · rfl

theorem reserve_back_consume_front_spec_witness :
    (reserve_back
        ({ size_ := 8
           circular_buffer_ := List.replicate 8 none
           start := 3
           end_ := 5 } : bounded_dequeue Nat) =
      (if 8 - 3 < dist16 5 3 then none
       else some (({ size_ := 8
                     circular_buffer_ := List.replicate 8 none
                     start := 3
                     end_ := inc16 5 } : bounded_dequeue Nat), 5))) ∧
    (consume_front
        ({ size_ := 8
           circular_buffer_ := List.replicate 8 none
           start := 3
           end_ := 5 } : bounded_dequeue Nat) =
      (if (3 : Nat) = 5 then none
       else some (({ size_ := 8
                     circular_buffer_ := List.replicate 8 none
                     start := inc16 3
                     end_ := 5 } : bounded_dequeue Nat), 3))) :=
  reserve_back_consume_front_spec
    { size_ := 8, circular_buffer_ := List.replicate 8 none, start := 3, end_ := 5 }
    (by decide) (by decide) (by decide) (by decide)

/-- Claim C4: push_back and push_front never report failure.  The C++
functions return `void`; a failed CAS in the slot loops updates the
expected value, so the second attempt always succeeds and the push
completes even when the reserved 16-bit position aliases an occupied slot
(at the cost of overwriting it — see the C5 counterexample).  On every
reachable state the pushed element is resident afterwards; when the fast
reservation fails the element is placed in the unbounded slow deque under
the lock with the counter incremented; and a pop that returns `false`
leaves both the deque and the caller's out-parameter untouched.  No
operation ever reports an error. -/
theorem push_always_completes {T : Type} {sz : Nat} {q : concurrent_dequeue T}
    (hr : dq_reach T sz q) (x : T) (v : Option T) :
    x ∈ resident (push_back q x) ∧
    x ∈ resident (push_front q x) ∧
    (reserve_back q.fast_deque_ = none →
      push_back q x = { q with
        num_elements_slow_ := q.num_elements_slow_ + 1
        slow_access_elems_ := q.slow_access_elems_ ++ [x] }) ∧
    (reserve_front q.fast_deque_ = none →
      push_front q x = { q with
        num_elements_slow_ := q.num_elements_slow_ + 1
        slow_access_elems_ := x :: q.slow_access_elems_ }) ∧
    ((try_pop_front_ref q v).1 = false → try_pop_front_ref q v = (false, q, v)) ∧
    ((try_pop_back_ref q v).1 = false → try_pop_back_ref q v = (false, q, v)) := by
  obtain ⟨hi, _⟩ := dq_reach_inv hr
  refine ⟨mem_resident_push_back x hi, mem_resident_push_front x hi, ?_, ?_, ?_, ?_⟩
  · intro hres
    unfold push_back
    rw [hres]
  · intro hres
    unfold push_front
    rw [hres]
  · intro hfalse
    unfold try_pop_front_ref at hfalse ⊢
    cases hp : try_pop_front q with
    | empty => rfl
    | popped q1 p => rw [hp] at hfalse; simp at hfalse
  · intro hfalse
    unfold try_pop_back_ref at hfalse ⊢
    cases hp : try_pop_back q with
    | empty => rfl
    | popped q1 p => rw [hp] at hfalse; simp at hfalse

theorem push_always_completes_witness :
    (9 : Nat) ∈ resident (push_back
      { fast_deque_ :=
          { size_ := 4
            circular_buffer_ := [some 5, some 6, none, none]
            start := 0
            end_ := 2 }
        slow_access_elems_ := [7]
        num_elements_slow_ := 1 } 9) ∧
    (9 : Nat) ∈ resident (push_front
      { fast_deque_ :=
          { size_ := 4
            circular_buffer_ := [some 5, some 6, none, none]
            start := 0
            end_ := 2 }
        slow_access_elems_ := [7]
        num_elements_slow_ := 1 } 9) ∧
    (reserve_back ({ size_ := 4
                     circular_buffer_ := [some 5, some 6, none, none]
                     start := 0
                     end_ := 2 } : bounded_dequeue Nat) = none →
      push_back
        { fast_deque_ :=
            { size_ := 4
              circular_buffer_ := [some 5, some 6, none, none]
              start := 0
              end_ := 2 }
          slow_access_elems_ := [7]
          num_elements_slow_ := 1 } 9 =
        { fast_deque_ :=
            { size_ := 4
              circular_buffer_ := [some 5, some 6, none, none]
              start := 0
              end_ := 2 }
          slow_access_elems_ := [7, 9]
          num_elements_slow_ := 2 }) ∧
    (reserve_front ({ size_ := 4
                      circular_buffer_ := [some 5, some 6, none, none]
                      start := 0
                      end_ := 2 } : bounded_dequeue Nat) = none →
      push_front
        { fast_deque_ :=
            { size_ := 4
              circular_buffer_ := [some 5, some 6, none, none]
              start := 0
              end_ := 2 }
          slow_access_elems_ := [7]
          num_elements_slow_ := 1 } 9 =
        { fast_deque_ :=
            { size_ := 4
              circular_buffer_ := [some 5, some 6, none, none]
              start := 0
              end_ := 2 }
          slow_access_elems_ := [9, 7]
          num_elements_slow_ := 2 }) ∧
    ((try_pop_front_ref
        { fast_deque_ :=
            { size_ := 4
              circular_buffer_ := [some 5, some 6, none, none]
              start := 0
              end_ := 2 }
          slow_access_elems_ := [7]
          num_elements_slow_ := 1 } (some 42)).1 = false →
      try_pop_front_ref
        { fast_deque_ :=
            { size_ := 4
              circular_buffer_ := [some 5, some 6, none, none]
              start := 0
              end_ := 2 }
          slow_access_elems_ := [7]
          num_elements_slow_ := 1 } (some 42) =
        (false,
         { fast_deque_ :=
             { size_ := 4
               circular_buffer_ := [some 5, some 6, none, none]
               start := 0
               end_ := 2 }
           slow_access_elems_ := [7]
           num_elements_slow_ := 1 }, some 42)) ∧
    ((try_pop_back_ref
        { fast_deque_ :=
            { size_ := 4
              circular_buffer_ := [some 5, some 6, none, none]
              start := 0
              end_ := 2 }
          slow_access_elems_ := [7]
          num_elements_slow_ := 1 } (some 42)).1 = false →
      try_pop_back_ref
        { fast_deque_ :=
            { size_ := 4
              circular_buffer_ := [some 5, some 6, none, none]
              start := 0
              end_ := 2 }
          slow_access_elems_ := [7]
          num_elements_slow_ := 1 } (some 42) =
        (false,
         { fast_deque_ :=
             { size_ := 4
               circular_buffer_ := [some 5, some 6, none, none]
               start := 0
               end_ := 2 }
           slow_access_elems_ := [7]
           num_elements_slow_ := 1 }, some 42)) := by
  have hreach : dq_reach Nat 4
      { fast_deque_ :=
          { size_ := 4
            circular_buffer_ := [some 5, some 6, none, none]
            start := 0
            end_ := 2 }
        slow_access_elems_ := [7]
        num_elements_slow_ := 1 } := by
    have h3 : dq_reach Nat 4 (push_back (push_back (push_back (mk_dequeue Nat 4) 5) 6) 7) :=
      dq_reach.stepPushBack _ 7 (dq_reach.stepPushBack _ 6 (dq_reach.stepPushBack _ 5
        (dq_reach.init (by decide) (by decide))))
    have e : push_back (push_back (push_back (mk_dequeue Nat 4) 5) 6) 7 =
        { fast_deque_ :=
            { size_ := 4
              circular_buffer_ := [some 5, some 6, none, none]
              start := 0
              end_ := 2 }
          slow_access_elems_ := [7]
          num_elements_slow_ := 1 } := by decide
    rw [e] at h3
    exact h3
  exact push_always_completes hreach 9 (some 42)

/-- Claim C5 (counterexample): the claim fails for ring sizes that do not
divide 2^16.  On a fresh deque of size 10, six push_fronts and one
push_back complete with no pops, yet the resident multiset is not the
pushed multiset: the push_back's 16-bit position 0 aliases, modulo 10,
the slot of the sixth front element (position 65530), so the element 6 is
overwritten and lost while the element 7 is resident twice (both
position 65530 and position 0 read slot 0).  A later pop can thus observe
the same element twice, and the overwritten element is never moved out. -/
theorem dequeue_conservation_counterexample :
    run_ops (mk_dequeue Nat 10)
      [.opPushFront 1, .opPushFront 2, .opPushFront 3, .opPushFront 4, .opPushFront 5,
       .opPushFront 6, .opPushBack 7] =
      ({ fast_deque_ :=
           { size_ := 10
             circular_buffer_ := [some 7, some 5, some 4, some 3, some 2, some 1,
               none, none, none, none]
             start := 65530
             end_ := 1 }
         slow_access_elems_ := []
         num_elements_slow_ := 0 }, []) ∧
    Multiset.count 7
      (resident { fast_deque_ :=
                    { size_ := 10
                      circular_buffer_ := [some 7, some 5, some 4, some 3, some 2, some 1,
                        none, none, none, none]
                      start := 65530
                      end_ := 1 }
                  slow_access_elems_ := []
                  num_elements_slow_ := 0 }) = 2 ∧
    Multiset.count 6
      (resident { fast_deque_ :=
                    { size_ := 10
                      circular_buffer_ := [some 7, some 5, some 4, some 3, some 2, some 1,
                        none, none, none, none]
                      start := 65530
                      end_ := 1 }
                  slow_access_elems_ := []
                  num_elements_slow_ := 0 }) = 0 ∧
    ¬ ((↑(([] : List (Option Nat)).filterMap id) : Multiset Nat) +
        resident { fast_deque_ :=
                     { size_ := 10
                       circular_buffer_ := [some 7, some 5, some 4, some 3, some 2, some 1,
                         none, none, none, none]
                       start := 65530
                       end_ := 1 }
                   slow_access_elems_ := []
                   num_elements_slow_ := 0 } =
        pushed_of [.opPushFront 1, .opPushFront 2, .opPushFront 3, .opPushFront 4,
          .opPushFront 5, .opPushFront 6, .opPushBack 7]) := by
  refine ⟨by decide, by decide, by decide, by decide⟩

/-- Claim C5 (as amended): the conservation law holds whenever the ring
size divides 2^16 (as the task system's 256 does): for any trace of
pushes and pops on a fresh deque, the multiset of values moved out by
successful pops plus the multiset still resident equals the multiset
pushed, and every successful pop yields a genuine element (never a
moved-from husk).  Counted with multiplicity this gives every element
moved in once, out at most once, and never observed twice.  For other
ring sizes the law is refuted by `dequeue_conservation_counterexample`. -/
theorem dequeue_multiset_conservation {T : Type} (sz : Nat) (ops : List (dq_op T))
    (qf : concurrent_dequeue T) (out : List (Option T))
    (h3 : 3 ≤ sz) (h4 : sz < 65536) (hdvd : sz ∣ 65536)
    (hrun : run_ops (mk_dequeue T sz) ops = (qf, out)) :
    ↑(out.filterMap id) + resident qf = pushed_of ops ∧ ∀ o ∈ out, o.isSome := by
  have hi := mk_dequeue_slot_spec T sz h3 h4 hdvd
  obtain ⟨_, hres0, _⟩ := mk_dequeue_spec T sz h3 h4
  have hc := run_ops_conserves hi hrun
  rw [hres0, zero_add] at hc
  exact hc

theorem dequeue_multiset_conservation_witness :
    (↑(([some 2, some 3] : List (Option Nat)).filterMap id) : Multiset Nat) +
      resident { fast_deque_ :=
                   { size_ := 8
                     circular_buffer_ := [some 1, none, none, none, none, none, none, none]
                     start := 0
                     end_ := 1 }
                 slow_access_elems_ := []
                 num_elements_slow_ := 0 } =
      pushed_of [.opPushBack 1, .opPushFront 2, .opPopFront, .opPushBack 3, .opPopBack] ∧
    ∀ o ∈ ([some 2, some 3] : List (Option Nat)), o.isSome :=
  dequeue_multiset_conservation 8
    [.opPushBack 1, .opPushFront 2, .opPopFront, .opPushBack 3, .opPopBack]
    { fast_deque_ :=
        { size_ := 8
          circular_buffer_ := [some 1, none, none, none, none, none, none, none]
          start := 0
          end_ := 1 }
      slow_access_elems_ := []
      num_elements_slow_ := 0 }
    [some 2, some 3] (by decide) (by decide) (by decide) (by decide)

/-- Claim C6: in `spawn({f1, …, fn}, wake)`, every spawned task is passed
`wake_workers = true` regardless of the `wake` argument: the flags list
equals `replicate n true` and does not depend on `wake`.  The `wake`
argument can only matter for an empty initializer list, where no task is
spawned at all. -/
theorem spawn_list_wake_flags_ignore_wake (n : Nat) (wake : Bool) (h : 0 < n) :
    spawn_list_wake_flags n wake = List.replicate n true ∧
    spawn_list_wake_flags n wake = spawn_list_wake_flags n true :=
  ⟨spawn_list_wake_flags_all_true n wake, by
    rw [spawn_list_wake_flags_all_true, spawn_list_wake_flags_all_true]⟩

theorem spawn_list_wake_flags_ignore_wake_witness :
    spawn_list_wake_flags 3 false = List.replicate 3 true ∧
    spawn_list_wake_flags 3 false = spawn_list_wake_flags 3 true :=
  spawn_list_wake_flags_ignore_wake 3 false (by decide)

/-- Claim C7: the claim states the intended rule for
`spawn_and_wait({f1, …, fn})` — wake for all tasks except the last.  The
code computes `count-- > 0` with post-decrement, which is true for every
task including the last, contradicting the source's own comment
`// don't wake on the last task`.  Evaluating the code model at the
failing input (a one-element list, and the last flag of a three-element
list): the last task is spawned with `wake_workers = true`, not
`false`. -/
theorem spawn_and_wait_wakes_on_last_task :
    spawn_and_wait_wake_flags 1 = [true] ∧
    spawn_and_wait_wake_flags 1 ≠ [false] ∧
    (spawn_and_wait_wake_flags 3).getLast? = some true := by
  decide

/-- Claim C8: the functor overload of `spawn` attaches the calling
thread's current task group to the task it creates, and the functor
overload of `spawn_and_wait` attaches a freshly created group whose
parent is the current group, so spawned children inherit the enclosing
task's group by default. -/
theorem spawn_tasks_inherit_current_group {F : Type} (current : Option task_group)
    (ftor : F) (wake : Bool) (fresh : Nat) :
    (spawn_functor current ftor wake).1.grp = current ∧
    (spawn_and_wait_functor fresh current ftor).1.grp =
      some { id := fresh, parent := current.map task_group.id } ∧
    (spawn_and_wait_functor fresh current ftor).2.1.parent =
      current.map task_group.id :=
  ⟨rfl, rfl, rfl⟩

/-- Claim C9: on an empty deque (fast ring with start = end and slow
counter zero) try_pop_front and try_pop_back return `false`, leaving the
caller's out-parameter and the entire deque state unchanged. -/
theorem try_pop_on_empty_returns_false {T : Type} (q : concurrent_dequeue T) (v : Option T)
    (h1 : q.fast_deque_.start = q.fast_deque_.end_)
    (h2 : q.num_elements_slow_ = 0) :
    try_pop_front_ref q v = (false, q, v) ∧
    try_pop_back_ref q v = (false, q, v) := by
  have hcf : consume_front q.fast_deque_ = none := consume_front_eq_none.mpr h1
  have hcb : consume_back q.fast_deque_ = none := consume_back_eq_none.mpr h1
  have hpf : try_pop_front q = .empty := by
    unfold try_pop_front
    rw [hcf]
    dsimp only
    rw [h2]
    simp
  have hpb : try_pop_back q = .empty := by
    unfold try_pop_back
    rw [hcb]
    dsimp only
    rw [h2]
    simp
  constructor
  · unfold try_pop_front_ref
    rw [hpf]
  · unfold try_pop_back_ref
    rw [hpb]

theorem try_pop_on_empty_returns_false_witness :
    try_pop_front_ref (mk_dequeue Nat 8) (some 42) = (false, mk_dequeue Nat 8, some 42) ∧
    try_pop_back_ref (mk_dequeue Nat 8) (some 42) = (false, mk_dequeue Nat 8, some 42) :=
  try_pop_on_empty_returns_false (mk_dequeue Nat 8) (some 42) (by decide) (by decide)

/-- Claim C10: in every reachable (quiescent, lock-free) state of the
deque, the atomic counter `num_elements_slow_` equals the number of
elements stored in the slow deque: slow-path pushes and pops update the
counter together with the container under the lock, and `unsafe_clear`
resets both. -/
theorem num_elements_slow_matches_slow_deque {T : Type} {sz : Nat}
    {q : concurrent_dequeue T} (hr : dq_reach T sz q) :
    q.num_elements_slow_ = (q.slow_access_elems_.length : Int) :=
  (dq_reach_inv hr).1.hslow

theorem num_elements_slow_matches_slow_deque_witness :
    ({ fast_deque_ :=
         { size_ := 4
           circular_buffer_ := [some 1, some 2, none, none]
           start := 0
           end_ := 2 }
       slow_access_elems_ := [3]
       num_elements_slow_ := 1 } : concurrent_dequeue Nat).num_elements_slow_ =
      (({ fast_deque_ :=
            { size_ := 4
              circular_buffer_ := [some 1, some 2, none, none]
              start := 0
              end_ := 2 }
          slow_access_elems_ := [3]
          num_elements_slow_ := 1 } : concurrent_dequeue Nat).slow_access_elems_.length :
        Int) := by
  have h3 : dq_reach Nat 4 (push_back (push_back (push_back (mk_dequeue Nat 4) 1) 2) 3) :=
    dq_reach.stepPushBack _ 3 (dq_reach.stepPushBack _ 2 (dq_reach.stepPushBack _ 1
      (dq_reach.init (by decide) (by decide))))
  have e : push_back (push_back (push_back (mk_dequeue Nat 4) 1) 2) 3 =
      { fast_deque_ :=
          { size_ := 4
            circular_buffer_ := [some 1, some 2, none, none]
            start := 0
            end_ := 2 }
        slow_access_elems_ := [3]
        num_elements_slow_ := 1 } := by decide
  rw [e] at h3
  exact num_elements_slow_matches_slow_deque h3

end Concore
